import Mathlib

/-! Queen's Quadrille solver: a shallow embedding.

The development models `queens_quadrille_solver.cpp`.  A board is the
16-character `std::string` of the program, here a list of characters.
`int` values are modelled by `Int` (on boards all quantities that occur are
small and non-negative), `size_t` indices by `Nat`.  Where a statement ranges
over all `int` arguments, `is_valid_move_int32` gives the function with its
32-bit arithmetic, and `is_valid_move_int32_eq` relates the two.

The `std::priority_queue` of the search is held as the list of its states;
popping takes a state of least `f_score`, and an explicit sequence of choices
(`pick`) stands for whatever the library's heap does among equal scores.  The
`std::unordered_set` of visited boards is held as a list and used through
membership only.  The `while` loop runs on fuel; `search_loop_ne_none` shows
that the fuel given by `solve_queens_quadrille` is never used up on a 16-cell
board.

The greedy tour of `main` is modelled from the point where the board and the
target list have been read: `tour_iteration` is one pass of its loop body,
`tour_loop` the loop, `tour_after` the loop state after a number of passes.
Target cells are natural numbers; the properties proved are about targets in
[0,16), where `board[target]` is defined.
-/

namespace QueensQuadrille

/-- A board configuration: the characters of the board string, cell 0 first. -/
abbrev Board := List Char

/-- The read `board[i]`.  Reading at the string's length gives the
terminating null character; the same value stands for any index past the end. -/
def cell (board : Board) (i : Nat) : Char :=
  board.getD i (Char.ofNat 0)

/-- The function `chebyshev_distance`: `/` and `%` on `int` truncate toward zero. -/
def chebyshev_distance (pos1 pos2 : Int) : Int :=
  let r1 := Int.tdiv pos1 4
  let c1 := Int.tmod pos1 4
  let r2 := Int.tdiv pos2 4
  let c2 := Int.tmod pos2 4
  max |r1 - r2| |c1 - c2|

/-- The scan `for (i = 0; i < 16; ++i) if (board[i] == 'Q') { queen_pos = i; break; }`;
`none` stands for `queen_pos == -1`. -/
def find_queen (board : Board) : Option Nat :=
  (List.range 16).find? (fun i => cell board i == 'Q')

/-- The function `calculate_heuristic`, with the target given by its position. -/
def calculate_heuristic (board : Board) (target : Nat) : Int :=
  match find_queen board with
  | none => 9999
  | some queen_pos => chebyshev_distance (queen_pos : Int) (target : Int)

/-- The function `is_valid_move`, on unbounded integers.  It is the program's
function whenever `r1 - r2` and `c1 - c2` do not overflow, in particular for
the coordinates 0..3 of a board; `is_valid_move_int32` is the function with
32-bit arithmetic. -/
def is_valid_move (piece : Char) (r1 c1 r2 c2 : Int) : Bool :=
  let dr := |r1 - r2|
  let dc := |c1 - c2|
  if piece == 'N' then
    (dr == 1 && dc == 2) || (dr == 2 && dc == 1)
  else
    let is_adjacent := (max dr dc == 1)
    if piece == 'N' then
      (dr == 1 && dc == 2) || (dr == 2 && dc == 1)
    else if !is_adjacent then false
    else if piece == 'K' || piece == 'Q' then true
    else if piece == 'R' then (r1 == r2 || c1 == c2)
    else if piece == 'B' then dr == dc
    else false

/-- The value a 32-bit `int` takes for the mathematical result `x`: on
overflow the result wraps around modulo `2^32` (two's complement). -/
def wrap_int32 (x : Int) : Int :=
  (x + 2147483648) % 4294967296 - 2147483648

/-- The call `std::abs(x)` on a 32-bit `int`: the absolute value, wrapped, so
that the least `int` is returned unchanged, as its two's-complement negation is. -/
def abs_int32 (x : Int) : Int :=
  wrap_int32 |x|

/-- The function `is_valid_move` on 32-bit `int` arguments: the subtractions
`r1 - r2`, `c1 - c2` and `std::abs` are computed in 32 bits, everything else
is as in `is_valid_move`. -/
def is_valid_move_int32 (piece : Char) (r1 c1 r2 c2 : Int) : Bool :=
  let dr := abs_int32 (wrap_int32 (r1 - r2))
  let dc := abs_int32 (wrap_int32 (c1 - c2))
  if piece == 'N' then
    (dr == 1 && dc == 2) || (dr == 2 && dc == 1)
  else
    let is_adjacent := (max dr dc == 1)
    if piece == 'N' then
      (dr == 1 && dc == 2) || (dr == 2 && dc == 1)
    else if !is_adjacent then false
    else if piece == 'K' || piece == 'Q' then true
    else if piece == 'R' then (r1 == r2 || c1 == c2)
    else if piece == 'B' then dr == dc
    else false

/-- One iteration of the loop body of `get_next_states` for source cell `i`,
`empty_index` being the position of the first blank. -/
def next_states_step (board : Board) (empty_index : Nat) (next_states : List Board)
    (i : Nat) : List Board :=
  if cell board i != ' ' then
    if is_valid_move (cell board i) ((i / 4 : Nat) : Int) ((i % 4 : Nat) : Int)
        ((empty_index / 4 : Nat) : Int) ((empty_index % 4 : Nat) : Int) then
      next_states ++ [(board.set empty_index (cell board i)).set i ' ']
    else next_states
  else next_states

/-- The function `get_next_states`.  `board.find(' ')` is the index of the first
blank, and the length of the board when there is none (`npos`). -/
def get_next_states (board : Board) : List Board :=
  let empty_index := board.indexOf ' '
  if empty_index = board.length then []
  else (List.range 16).foldl (next_states_step board empty_index) []

/-- The goal test `is_goal_state` of `solve_queens_quadrille`. -/
def is_goal_state (target : Nat) (board : Board) : Bool :=
  cell board target == 'Q'

/-- The record `State` of the search: `f_score`, `g_score`, the path so far and the board. -/
structure State where
  f_score : Int
  g_score : Int
  path : List Board
  board : Board
deriving DecidableEq

/-- Whether `s` may be the `top()` of the queue `pq`: the queue orders states by
`f_score` alone (`operator>`), so the top is any state of least `f_score`. -/
def is_top (pq : List State) (s : State) : Bool :=
  pq.all (fun n => decide (s.f_score ≤ n.f_score))

/-- The positions of `pq` holding a state of least `f_score`. -/
def top_positions (pq : List State) : List Nat :=
  (List.range pq.length).filter (fun i =>
    match pq[i]? with
    | some s => is_top pq s
    | none => false)

/-- The pair `pq.top(); pq.pop()` on a queue held as the list of its states.
`std::priority_queue` fixes only that the top has least `f_score`; which of
several least states it yields depends on the library's heap layout.  The
number `choice` settles that: it selects among the least states.  `none` is
the empty queue. -/
def pq_pop (choice : Nat) (pq : List State) : Option (State × List State) :=
  match (top_positions pq)[choice % (top_positions pq).length]? with
  | none => none
  | some i =>
    match pq[i]? with
    | some s => some (s, pq.eraseIdx i)
    | none => none

/-- The states pushed when `current` is expanded: one for each successor board
not in `visited`, in the order of `get_next_states`. -/
def push_successors (target : Nat) (current : State) (visited : List Board) : List State :=
  ((get_next_states current.board).filter (fun next_board => decide (next_board ∉ visited))).map
    (fun next_board =>
      { f_score := (current.g_score + 1) + calculate_heuristic next_board target
        g_score := current.g_score + 1
        path := current.path ++ [next_board]
        board := next_board })

/-- The `while (!pq.empty())` loop of `solve_queens_quadrille`, run for at most
`fuel` iterations; `none` means the fuel ran out.  `pick k` is the choice made
among least states at the `k`-th pop from here on, so a statement about every
`pick` holds whatever the queue does on ties. -/
def search_loop (target : Nat) : (Nat → Nat) → Nat → List State → List Board →
    Option (List Board)
  | _, 0, _, _ => none
  | pick, fuel + 1, pq, visited =>
    match pq_pop (pick 0) pq with
    | none => some []
    | some (current, rest) =>
      if current.board ∈ visited then
        search_loop target (fun k => pick (k + 1)) fuel rest visited
      else if is_goal_state target current.board then
        some current.path
      else
        search_loop target (fun k => pick (k + 1)) fuel
          (rest ++ push_successors target current (current.board :: visited))
          (current.board :: visited)

/-- A number of iterations that suffices for every 16-cell board:
`17 * 16! + 2` (see `search_loop_ne_none`). -/
def search_fuel : Nat := 355687428096002

/-- The function `solve_queens_quadrille`.  The result is `some path` for the
returned vector (`some []` for the empty vector); `none` would mean that the
loop did not finish within `search_fuel` iterations, which never happens on a
16-cell board. -/
def solve_queens_quadrille (pick : Nat → Nat) (initial_board_str : Board) (target : Nat) :
    Option (List Board) :=
  search_loop target pick search_fuel
    [{ f_score := calculate_heuristic initial_board_str target
       g_score := 0
       path := [initial_board_str]
       board := initial_board_str }]
    []

/-- A sequence of boards in which each board after the first is a successor
(`get_next_states`) of the one before it. -/
def LegalPath (path : List Board) : Prop :=
  List.Chain' (fun a b => b ∈ get_next_states a) path

/-- The board `b` is reached from `a` by exactly `n` legal moves. -/
inductive Reach (a : Board) : Nat → Board → Prop
  | refl : Reach a 0 a
  | step {n : Nat} {b c : Board} : Reach a n b → c ∈ get_next_states b → Reach a (n + 1) c

/-- The condition of the reference successor list: cell `i` is not blank and
its piece may move to cell `e`. -/
def movable (board : Board) (e i : Nat) : Bool :=
  cell board i != ' ' &&
    is_valid_move (cell board i) ((i / 4 : Nat) : Int) ((i % 4 : Nat) : Int)
      ((e / 4 : Nat) : Int) ((e % 4 : Nat) : Int)

/-- The board of the reference successor list, cell by cell: a blank at `i`,
the piece of cell `i` at `e`, every other cell as in `board`. -/
def moved_board (board : Board) (e i : Nat) : Board :=
  (List.range 16).map (fun j =>
    if j = i then ' ' else if j = e then cell board i else cell board j)

/-- The reference successor list for a board whose first blank is at `e`: the
moved boards for the movable source cells `i = 0..15` in increasing order. -/
def reference_next_states (board : Board) (e : Nat) : List Board :=
  ((List.range 16).filter (movable board e)).map (moved_board board e)

/-- What one `top(); pop()` on the queue `pq` yields: a state `current` of
least `f_score`, and the queue `rest` without one copy of it. -/
structure PopSpec (pq : List State) (current : State) (rest : List State) : Prop where
  mem : current ∈ pq
  least : ∀ n, n ∈ pq → current.f_score ≤ n.f_score
  split : ∀ n, n ∈ pq → n = current ∨ n ∈ rest
  sub : ∀ n, n ∈ rest → n ∈ pq
  length : rest.length + 1 = pq.length

/-- What the search keeps true of every queued state: its path is a sequence
of legal moves from `start` to its board, `g_score` counts the moves and
`f_score` adds the heuristic. -/
structure NodeOk (start : Board) (target : Nat) (n : State) : Prop where
  head : n.path.head? = some start
  last : n.path.getLast? = some n.board
  legal : LegalPath n.path
  reach : Reach start (n.path.length - 1) n.board
  len : (n.path.length : Int) = n.g_score + 1
  f_eq : n.f_score = n.g_score + calculate_heuristic n.board target

/-- The loop invariant of the search on the queue `F` and the visited set `V`. -/
structure SearchInv (start : Board) (target : Nat) (F : List State) (V : List Board) :
    Prop where
  nodes : ∀ n, n ∈ F → NodeOk start target n
  start_covered : start ∈ V ∨ ∃ n, n ∈ F ∧ n.board = start ∧ n.g_score = 0
  closed : ∀ v, v ∈ V → ∀ s, s ∈ get_next_states v → s ∈ V ∨ ∃ n, n ∈ F ∧ n.board = s
  no_goal : ∀ v, v ∈ V → is_goal_state target v = false

/-- The part of the loop invariant that carries distances: a successor of a
visited board is visited or queued at a cost no larger than one more than the
length of any walk to that visited board. -/
def DistInv (start : Board) (F : List State) (V : List Board) : Prop :=
  ∀ v, v ∈ V → ∀ s, s ∈ get_next_states v → ∀ m : Nat, Reach start m v →
    s ∈ V ∨ ∃ n, n ∈ F ∧ n.board = s ∧ n.g_score ≤ (m : Int) + 1

/-- The initial state pushed by `solve_queens_quadrille`. -/
def initial_state (initial_board_str : Board) (target : Nat) : State :=
  { f_score := calculate_heuristic initial_board_str target
    g_score := 0
    path := [initial_board_str]
    board := initial_board_str }

/-- A 16-cell board with one blank (cell 14) and two Queens (cells 0 and 15). -/
def two_queens_board : Board :=
  ['Q','K','R','R','R','R','B','B','B','B','N','N','N','N',' ','Q']

/-- The direction of travel along one coordinate: `1`, `-1` or `0`. -/
def line_step (a b : Int) : Int :=
  if a < b then 1 else if b < a then -1 else 0

/-- The cells strictly between (r1,c1) and (r2,c2) along a rank, a file or a
diagonal, given by their cell index `4 * row + column`. -/
def cells_between (r1 c1 r2 c2 : Int) : List Nat :=
  ((List.range (max |r1 - r2| |c1 - c2|).toNat).filter (fun k => decide (0 < k))).map
    (fun k => ((r1 + (k : Int) * line_step r1 r2) * 4 + (c1 + (k : Int) * line_step c1 c2)).toNat)

/-- Reference definition, standard chess movement without capture and without
jumping: whether `piece` standing on (r1,c1) can move to (r2,c2) on a board
whose empty cells are those with `is_empty`.  The King moves one step in any
direction, the Knight makes its L-jump, the Rook slides along a rank or file,
the Bishop along a diagonal, the Queen along either, and a slide needs every
cell strictly between the two cells to be empty. -/
def chess_move (is_empty : Nat → Bool) (piece : Char) (r1 c1 r2 c2 : Int) : Bool :=
  let dr := |r1 - r2|
  let dc := |c1 - c2|
  let straight := (dr == 0 && dc != 0) || (dr != 0 && dc == 0)
  let diagonal := dr == dc && dr != 0
  let clear := (cells_between r1 c1 r2 c2).all is_empty
  if piece == 'K' then max dr dc == 1
  else if piece == 'N' then (dr == 1 && dc == 2) || (dr == 2 && dc == 1)
  else if piece == 'R' then straight && clear
  else if piece == 'B' then diagonal && clear
  else if piece == 'Q' then (straight || diagonal) && clear
  else false

/-- The nearest-target scan of the tour loop, from list position `i` on:
`for (i...) { t = remaining_targets[i]; if (t == queen_pos) { best_target_idx = i;
min_dist = 0; break; } d = chebyshev_distance(queen_pos, t); if (d < min_dist)
{ min_dist = d; best_target_idx = i; } }`.  The result is the pair
`(best_target_idx, min_dist)`. -/
def nearest_loop (queen_pos : Nat) : List Nat → Nat → Int → Int → Int × Int
  | [], _, best_target_idx, min_dist => (best_target_idx, min_dist)
  | t :: rest, i, best_target_idx, min_dist =>
    if t = queen_pos then ((i : Int), 0)
    else
      let d := chebyshev_distance (queen_pos : Int) (t : Int)
      if d < min_dist then nearest_loop queen_pos rest (i + 1) (i : Int) d
      else nearest_loop queen_pos rest (i + 1) best_target_idx min_dist

/-- The scan started as in `main`: `best_target_idx = -1`, `min_dist = 9999`. -/
def nearest_target (queen_pos : Nat) (remaining_targets : List Nat) : Int × Int :=
  nearest_loop queen_pos remaining_targets 0 (-1) 9999

/-- What the scan has established after the targets `pre`: none of them is the
Queen's cell, all are cells of the board, and `best` is the first position of least distance among them. -/
def ScanInv (q : Nat) (pre : List Nat) (best : Int) (min_dist : Int) : Prop :=
  (∀ t, t ∈ pre → t < 16 ∧ t ≠ q) ∧
  (pre = [] → best = -1 ∧ min_dist = 9999) ∧
  (pre ≠ [] → ∃ sel, 0 ≤ best ∧ pre[best.toNat]? = some sel ∧
    min_dist = chebyshev_distance (q : Int) (sel : Int) ∧
    (∀ t, t ∈ pre → chebyshev_distance (q : Int) (sel : Int) ≤ chebyshev_distance (q : Int) (t : Int)) ∧
    (∀ t, t ∈ pre.take best.toNat →
      chebyshev_distance (q : Int) (sel : Int) < chebyshev_distance (q : Int) (t : Int)))

/-- The entry at position `idx` of `remaining` is the first one of least
Chebyshev distance from the Queen's cell `q`. -/
def FirstNearest (q : Nat) (remaining : List Nat) (idx : Nat) (sel : Nat) : Prop :=
  remaining[idx]? = some sel ∧
  (∀ t, t ∈ remaining →
    chebyshev_distance (q : Int) (sel : Int) ≤ chebyshev_distance (q : Int) (t : Int)) ∧
  (∀ t, t ∈ remaining.take idx →
    chebyshev_distance (q : Int) (sel : Int) < chebyshev_distance (q : Int) (t : Int))

/-- The variables of the tour loop of `main`: the accumulated `full_path`, the
`current_board`, the `remaining_targets` and the leg counter `tour_step`. -/
structure TourState where
  full_path : List Board
  current_board : Board
  remaining_targets : List Nat
  tour_step : Nat
deriving DecidableEq

/-- How one iteration of the tour loop ends: with the next loop state, with
the error exit "Queen lost!", with the exit "No solution found for target",
or, in the model only, with a search that ran out of fuel. -/
inductive IterationResult where
  | next (s : TourState)
  | queen_lost
  | no_solution (target_pos : Nat)
  | out_of_fuel

/-- One iteration of the tour loop of `main`, for a non-empty list of remaining
targets.  The search of a leg is a function of its board and target, and so is
what its queue does on ties: `pick board target`. -/
def tour_iteration (pick : Board → Nat → Nat → Nat) (s : TourState) : IterationResult :=
  match find_queen s.current_board with
  | none => IterationResult.queen_lost
  | some queen_pos =>
    let best_target_idx := (nearest_target queen_pos s.remaining_targets).1
    let target_pos := s.remaining_targets.getD best_target_idx.toNat 0
    let remaining := s.remaining_targets.eraseIdx best_target_idx.toNat
    if target_pos = queen_pos then
      IterationResult.next
        { full_path := s.full_path
          current_board := s.current_board
          remaining_targets := remaining
          tour_step := s.tour_step }
    else
      match solve_queens_quadrille (pick s.current_board target_pos) s.current_board
          target_pos with
      | none => IterationResult.out_of_fuel
      | some [] => IterationResult.no_solution target_pos
      | some (first :: more) =>
        IterationResult.next
          { full_path := s.full_path ++ more
            current_board := (first :: more).getLast (List.cons_ne_nil first more)
            remaining_targets := remaining
            tour_step := s.tour_step + 1 }

/-- The outcome of the tour: completed with the full path (and the final leg
counter), or one of the exits of `tour_iteration`. -/
inductive TourResult where
  | completed (full_path : List Board) (tour_step : Nat)
  | queen_lost
  | no_solution (target_pos : Nat)
  | out_of_fuel
deriving DecidableEq

/-- The loop `while (!remaining_targets.empty())` of `main`, run for at most
`fuel` iterations. -/
def tour_loop (pick : Board → Nat → Nat → Nat) : Nat → TourState → TourResult
  | 0, s =>
    if s.remaining_targets = [] then TourResult.completed s.full_path s.tour_step
    else TourResult.out_of_fuel
  | fuel + 1, s =>
    if s.remaining_targets = [] then TourResult.completed s.full_path s.tour_step
    else
      match tour_iteration pick s with
      | IterationResult.next s' => tour_loop pick fuel s'
      | IterationResult.queen_lost => TourResult.queen_lost
      | IterationResult.no_solution target_pos => TourResult.no_solution target_pos
      | IterationResult.out_of_fuel => TourResult.out_of_fuel

/-- The loop state set up by `main` before the tour loop. -/
def initial_tour_state (board : Board) (targets : List Nat) : TourState :=
  { full_path := [board]
    current_board := board
    remaining_targets := targets
    tour_step := 1 }

/-- The greedy nearest-neighbour tour of `main`.  Every iteration removes one
target, so the length of the target list is fuel enough. -/
def tour (pick : Board → Nat → Nat → Nat) (board : Board) (targets : List Nat) : TourResult :=
  tour_loop pick targets.length (initial_tour_state board targets)

/-- The loop state after `k` iterations of the tour loop started in `s`;
`none` when the loop has ended or exited before. -/
def tour_after (pick : Board → Nat → Nat → Nat) : Nat → TourState → Option TourState
  | 0, s => some s
  | k + 1, s =>
    if s.remaining_targets = [] then none
    else
      match tour_iteration pick s with
      | IterationResult.next s' => tour_after pick k s'
      | _ => none

/-- Reference definition: the list with every repeated entry removed after its
first occurrence; the first occurrences keep their order. -/
def remove_repeats : List Nat → List Nat
  | [] => []
  | t :: rest => t :: (remove_repeats rest).filter (fun x => decide (x ≠ t))

/-- The tour loop started with the given values of its variables. -/
def tour_from (pick : Board → Nat → Nat → Nat) (board : Board) (remaining : List Nat)
    (full_path : List Board) (tour_step : Nat) : TourResult :=
  tour_loop pick remaining.length
    { full_path := full_path
      current_board := board
      remaining_targets := remaining
      tour_step := tour_step }

/-! ## Move legality -/

/-- Claim C5 (Knight rule): `is_valid_move('N', r1, c1, r2, c2)` is true exactly
when the absolute row and column deltas are (1,2) or (2,1).  It holds for all
integer coordinates, in particular for coordinates in 0..3. -/
theorem knight_rule (r1 c1 r2 c2 : Int) :
    is_valid_move 'N' r1 c1 r2 c2 = true ↔
      (|r1 - r2| = 1 ∧ |c1 - c2| = 2) ∨ (|r1 - r2| = 2 ∧ |c1 - c2| = 1) := by
  simp [is_valid_move]

/-- For a piece other than the Knight the function is one closed
expression in the deltas. -/
theorem is_valid_move_of_ne_knight (piece : Char) (r1 c1 r2 c2 : Int) (h : piece ≠ 'N') :
    is_valid_move piece r1 c1 r2 c2 =
      (decide (max |r1 - r2| |c1 - c2| = 1) &&
        (piece == 'K' || piece == 'Q' ||
          (piece == 'R' && (decide (|r1 - r2| = 0) || decide (|c1 - c2| = 0))) ||
          (piece == 'B' && decide (|r1 - r2| = |c1 - c2|)))) := by
  have hr0 : (r1 == r2) = decide (|r1 - r2| = 0) := by
    rw [Bool.eq_iff_iff]; simp only [beq_iff_eq, decide_eq_true_eq, abs_eq_zero]; omega
  have hc0 : (c1 == c2) = decide (|c1 - c2| = 0) := by
    rw [Bool.eq_iff_iff]; simp only [beq_iff_eq, decide_eq_true_eq, abs_eq_zero]; omega
  have hd : (|r1 - r2| == |c1 - c2|) = decide (|r1 - r2| = |c1 - c2|) := rfl
  unfold is_valid_move
  rw [hr0, hc0]
  simp only [beq_iff_eq, h, if_false]
  by_cases hadj : max |r1 - r2| |c1 - c2| = 1
  · by_cases hK : piece = 'K'
    · simp [hadj, hK]
    · by_cases hQ : piece = 'Q'
      · simp [hadj, hQ]
      · by_cases hR : piece = 'R'
        · subst hR; simp [hadj]
        · by_cases hB : piece = 'B'
          · subst hB; simp [hadj]; exact hd
          · simp [hadj, hK, hQ, hR, hB]
  · simp [hadj]

/-- Claim C6 (non-Knight rule): for a piece character other than 'N', a legal
move has max(dr,dc) = 1; 'K' and 'Q' are legal exactly when max(dr,dc) = 1, 'R'
exactly when (dr,dc) is (1,0) or (0,1), 'B' exactly when dr = dc = 1, and any
other character (the blank included) is never legal. -/
theorem non_knight_rule (piece : Char) (r1 c1 r2 c2 : Int) (h : piece ≠ 'N') :
    (is_valid_move piece r1 c1 r2 c2 = true → max |r1 - r2| |c1 - c2| = 1) ∧
    ((piece = 'K' ∨ piece = 'Q') →
      (is_valid_move piece r1 c1 r2 c2 = true ↔ max |r1 - r2| |c1 - c2| = 1)) ∧
    (piece = 'R' →
      (is_valid_move piece r1 c1 r2 c2 = true ↔
        (|r1 - r2| = 1 ∧ |c1 - c2| = 0) ∨ (|r1 - r2| = 0 ∧ |c1 - c2| = 1))) ∧
    (piece = 'B' →
      (is_valid_move piece r1 c1 r2 c2 = true ↔ |r1 - r2| = 1 ∧ |c1 - c2| = 1)) ∧
    (piece ≠ 'K' → piece ≠ 'Q' → piece ≠ 'R' → piece ≠ 'B' →
      is_valid_move piece r1 c1 r2 c2 = false) := by
  rw [is_valid_move_of_ne_knight piece r1 c1 r2 c2 h]
  have hr := abs_nonneg (r1 - r2)
  have hc := abs_nonneg (c1 - c2)
  generalize |r1 - r2| = dr at hr ⊢
  generalize |c1 - c2| = dc at hc ⊢
  have hmax : max dr dc = 1 ↔ (dr = 1 ∧ dc ≤ 1) ∨ (dc = 1 ∧ dr ≤ 1) := by
    rcases le_total dr dc with hle | hle
    · rw [max_eq_right hle]; omega
    · rw [max_eq_left hle]; omega
  refine ⟨?_, ?_, ?_, ?_, ?_⟩
  · intro hv
    simp only [Bool.and_eq_true, decide_eq_true_eq] at hv
    exact hv.1
  · rintro (rfl | rfl) <;> simp
  · rintro rfl
    simp only [Bool.and_eq_true, decide_eq_true_eq, Bool.or_eq_true, beq_iff_eq, hmax]
    simp only [show ('R' = 'K') = False by decide, show ('R' = 'Q') = False by decide,
      show ('R' = 'B') = False by decide, false_or, true_and, false_and, or_false]
    omega
  · rintro rfl
    simp only [Bool.and_eq_true, decide_eq_true_eq, Bool.or_eq_true, beq_iff_eq, hmax]
    simp only [show ('B' = 'K') = False by decide, show ('B' = 'Q') = False by decide,
      show ('B' = 'R') = False by decide, false_or, true_and, false_and, or_false]
    omega
  · intro hK hQ hR hB
    simp [hK, hQ, hR, hB]

theorem wrap_int32_eq_self (x : Int) (h1 : -2147483648 ≤ x) (h2 : x < 2147483648) :
    wrap_int32 x = x := by
  unfold wrap_int32
  omega

theorem abs_int32_wrap_sub_comm (a b : Int) :
    abs_int32 (wrap_int32 (a - b)) = abs_int32 (wrap_int32 (b - a)) := by
  have h : wrap_int32 (b - a) = -wrap_int32 (a - b) ∨
      (wrap_int32 (a - b) = -2147483648 ∧ wrap_int32 (b - a) = -2147483648) := by
    unfold wrap_int32
    omega
  unfold abs_int32
  rcases h with h | ⟨h1, h2⟩
  · rw [h, abs_neg]
  · rw [h1, h2]

/-- Without overflow of `r1 - r2` and `c1 - c2` the 32-bit function is the
function on unbounded integers; this covers all coordinates of a board. -/
theorem is_valid_move_int32_eq (piece : Char) (r1 c1 r2 c2 : Int)
    (hr : |r1 - r2| < 2147483648) (hc : |c1 - c2| < 2147483648) :
    is_valid_move_int32 piece r1 c1 r2 c2 = is_valid_move piece r1 c1 r2 c2 := by
  have hr' := abs_lt.mp hr
  have hc' := abs_lt.mp hc
  have e1 : abs_int32 (wrap_int32 (r1 - r2)) = |r1 - r2| := by
    rw [wrap_int32_eq_self _ (by omega) (by omega)]
    unfold abs_int32
    exact wrap_int32_eq_self _ (by have := abs_nonneg (r1 - r2); omega) hr
  have e2 : abs_int32 (wrap_int32 (c1 - c2)) = |c1 - c2| := by
    rw [wrap_int32_eq_self _ (by omega) (by omega)]
    unfold abs_int32
    exact wrap_int32_eq_self _ (by have := abs_nonneg (c1 - c2); omega) hc
  unfold is_valid_move_int32 is_valid_move
  rw [e1, e2]

/-- With the least and the greatest `int` as rows, `r1 - r2` overflows to 1 or
to -1: the 32-bit function gives true for the King in both orders of the
cells, where the function on unbounded integers gives false. -/
theorem is_valid_move_int32_at_overflow :
    is_valid_move_int32 'K' (-2147483648) 0 2147483647 0 = true ∧
    is_valid_move_int32 'K' 2147483647 0 (-2147483648) 0 = true ∧
    is_valid_move 'K' (-2147483648) 0 2147483647 0 = false := by
  decide

/-- Claim C7 (symmetry): exchanging the two cells does not change the result
of `is_valid_move`, for every piece character and all integers: for the
function with its 32-bit arithmetic, overflow of `r1 - r2` and `c1 - c2`
included, and also for the function on unbounded integers. -/
theorem is_valid_move_symm (piece : Char) (r1 c1 r2 c2 : Int) :
    is_valid_move_int32 piece r1 c1 r2 c2 = is_valid_move_int32 piece r2 c2 r1 c1 ∧
    is_valid_move piece r1 c1 r2 c2 = is_valid_move piece r2 c2 r1 c1 := by
  have e1 : (r1 == r2) = (r2 == r1) := by
    rw [Bool.eq_iff_iff]; simp only [beq_iff_eq]; exact eq_comm
  have e2 : (c1 == c2) = (c2 == c1) := by
    rw [Bool.eq_iff_iff]; simp only [beq_iff_eq]; exact eq_comm
  constructor
  · unfold is_valid_move_int32
    rw [abs_int32_wrap_sub_comm r1 r2, abs_int32_wrap_sub_comm c1 c2, e1, e2]
  · unfold is_valid_move
    rw [abs_sub_comm r1 r2, abs_sub_comm c1 c2, e1, e2]

/-- Witness for `non_knight_rule`: a Rook one column away may move, a Rook
one diagonal step away may not. -/
theorem non_knight_rule_witness :
    ('R' : Char) ≠ 'N' ∧ (is_valid_move 'R' 1 1 1 2 = true ∧ is_valid_move 'R' 1 1 2 2 = false) := by
  refine ⟨by decide, ?_, ?_⟩
  · exact ((non_knight_rule 'R' 1 1 1 2 (by decide)).2.2.1 rfl).2 (by decide)
  · have := ((non_knight_rule 'R' 1 1 2 2 (by decide)).2.2.1 rfl)
    cases hv : is_valid_move 'R' 1 1 2 2
    · rfl
    · rw [hv] at this; have := this.1 rfl; revert this; decide

/-! ## Successor generation -/

theorem cell_eq_getElem (b : Board) (i : Nat) (h : i < b.length) : cell b i = b[i] := by
  unfold cell
  exact List.getD_eq_getElem b _ h

theorem cell_set (b : Board) (i j : Nat) (a : Char) :
    cell (b.set i a) j = if i = j ∧ i < b.length then a else cell b j := by
  unfold cell
  simp only [List.getD_eq_getElem?_getD, List.getElem?_set]
  by_cases hij : i = j
  · subst hij
    by_cases hi : i < b.length
    · simp [hi]
    · simp [hi, List.getElem?_eq_none (Nat.le_of_not_lt hi)]
  · simp [hij]

theorem foldl_push_eq {α β : Type} (p : α → Bool) (f : α → β) (l : List α) (init : List β) :
    l.foldl (fun acc i => if p i then acc ++ [f i] else acc) init
      = init ++ (l.filter p).map f := by
  induction l generalizing init with
  | nil => simp
  | cons a l ih =>
    simp only [List.foldl_cons, ih, List.filter_cons]
    by_cases h : p a = true <;> simp [h]

theorem get_next_states_eq (b : Board) :
    get_next_states b =
      if b.indexOf ' ' = b.length then []
      else ((List.range 16).filter (movable b (b.indexOf ' '))).map
        (fun i => (b.set (b.indexOf ' ') (cell b i)).set i ' ') := by
  unfold get_next_states
  simp only
  split
  · rfl
  · rw [← List.nil_append (List.map _ _), ← foldl_push_eq]
    congr 1
    funext acc i
    unfold next_states_step movable
    by_cases h1 : (cell b i != ' ') = true
    · simp only [h1, if_true, Bool.true_and]
    · simp only [h1, if_false, Bool.false_and]
      simp

theorem mem_get_next_states {b s : Board} :
    s ∈ get_next_states b ↔
      b.indexOf ' ' < b.length ∧ ∃ i, i < 16 ∧ movable b (b.indexOf ' ') i = true ∧
        s = (b.set (b.indexOf ' ') (cell b i)).set i ' ' := by
  rw [get_next_states_eq]
  have hle : b.indexOf ' ' ≤ b.length := List.indexOf_le_length
  split
  · rename_i h
    simp only [List.not_mem_nil, false_iff]
    omega
  · rename_i h
    simp only [List.mem_map, List.mem_filter, List.mem_range]
    constructor
    · rintro ⟨i, ⟨hi, hm⟩, rfl⟩
      exact ⟨by omega, i, hi, hm, rfl⟩
    · rintro ⟨_, i, hi, hm, rfl⟩
      exact ⟨i, ⟨hi, hm⟩, rfl⟩

theorem indexOf_eq_of_first (a : Char) (l : List Char) (e : Nat)
    (h1 : l[e]? = some a) (h2 : ∀ j, j < e → l[j]? ≠ some a) : l.indexOf a = e := by
  induction l generalizing e with
  | nil => simp at h1
  | cons x xs ih =>
    cases e with
    | zero =>
      simp only [List.getElem?_cons_zero, Option.some.injEq] at h1
      exact List.indexOf_cons_eq _ h1
    | succ e =>
      have hx : x ≠ a := by
        intro hxa
        exact h2 0 (Nat.succ_pos e) (by simp [hxa])
      rw [List.indexOf_cons_ne _ hx]
      congr 1
      apply ih
      · simpa using h1
      · intro j hj
        have := h2 (j + 1) (by omega)
        simpa using this

theorem indexOf_blank_eq (b : Board) (e : Nat) (he : e < b.length)
    (hblank : cell b e = ' ') (hfirst : ∀ j, j < e → cell b j ≠ ' ') :
    b.indexOf ' ' = e := by
  apply indexOf_eq_of_first
  · rw [cell_eq_getElem b e he] at hblank
    rw [List.getElem?_eq_getElem he, hblank]
  · intro j hj
    have hjl : j < b.length := by omega
    have := hfirst j hj
    rw [cell_eq_getElem b j hjl] at this
    rw [List.getElem?_eq_getElem hjl]
    simpa using this

theorem cell_indexOf_blank (b : Board) (h : b.indexOf ' ' < b.length) :
    cell b (b.indexOf ' ') = ' ' := by
  rw [cell_eq_getElem b _ h]
  exact List.getElem_indexOf h

theorem movable_ne (b : Board) (e i : Nat) (hblank : cell b e = ' ')
    (hm : movable b e i = true) : cell b i ≠ ' ' ∧ i ≠ e := by
  unfold movable at hm
  simp only [Bool.and_eq_true, bne_iff_ne, ne_eq] at hm
  refine ⟨hm.1, ?_⟩
  rintro rfl
  exact hm.1 hblank

theorem set_set_eq_moved_board (b : Board) (e i : Nat) (hlen : b.length = 16)
    (he : e < 16) (hi : i < 16) :
    (b.set e (cell b i)).set i ' ' = moved_board b e i := by
  apply List.ext_getElem
  · simp [moved_board, hlen]
  · intro j h1 h2
    have hj : j < 16 := by simpa [hlen] using h1
    rw [← cell_eq_getElem _ j h1, cell_set, cell_set]
    simp only [moved_board, List.getElem_map, List.getElem_range, List.length_set, hlen, hi, he,
      and_true]
    by_cases hij : i = j
    · simp [hij]
    · have hji : ¬ j = i := fun h => hij h.symm
      by_cases hej : e = j
      · simp [hij, hji, hej]
      · have hje : ¬ j = e := fun h => hej h.symm
        simp [hij, hji, hej, hje]

/-- Claim C8 (reference definition of the successors): for a 16-cell board
whose first blank is at cell `e`, `get_next_states` returns exactly the
reference list: for the source cells `i = 0..15` in increasing order that are
not blank and whose piece may legally move to `e`, the board with that piece
at `e`, a blank at `i` and every other cell unchanged. -/
theorem get_next_states_eq_reference (b : Board) (e : Nat) (hlen : b.length = 16)
    (he : e < 16) (hblank : cell b e = ' ') (hfirst : ∀ j, j < e → cell b j ≠ ' ') :
    get_next_states b = reference_next_states b e := by
  have hidx : b.indexOf ' ' = e := indexOf_blank_eq b e (by omega) hblank hfirst
  rw [get_next_states_eq, hidx, if_neg (by omega)]
  unfold reference_next_states
  apply List.map_congr_left
  intro i hi
  simp only [List.mem_filter, List.mem_range] at hi
  exact set_set_eq_moved_board b e i hlen he hi.1

/-- Witness for `get_next_states_eq_reference`: a board with its blank at cell 2. -/
theorem get_next_states_eq_reference_witness :
    get_next_states ['K','Q',' ','R','R','R','R','B','B','B','B','N','N','N','N','K'] =
      reference_next_states
        ['K','Q',' ','R','R','R','R','B','B','B','B','N','N','N','N','K'] 2 :=
  get_next_states_eq_reference _ 2 (by decide) (by decide) (by decide) (by decide)

theorem length_get_next_states_le (b : Board) : (get_next_states b).length ≤ 16 := by
  rw [get_next_states_eq]
  split
  · simp
  · rw [List.length_map]
    calc ((List.range 16).filter (movable b (b.indexOf ' '))).length
        ≤ (List.range 16).length := List.length_filter_le _ _
      _ = 16 := List.length_range 16

/-- Claim C9 (successor count bound and two-cell swap): for a 16-cell board
containing a blank, `get_next_states` returns at most 15 boards, and every
returned board is a 16-cell board that differs from the input in exactly two
cells, the empty cell `e` and the moved piece's cell `i`, whose contents are
exchanged. -/
theorem get_next_states_bound_and_swap (b : Board) (hlen : b.length = 16)
    (hblank : ' ' ∈ b) :
    (get_next_states b).length ≤ 15 ∧
    ∀ s, s ∈ get_next_states b →
      s.length = 16 ∧
      ∃ e i, e < 16 ∧ i < 16 ∧ cell b e = ' ' ∧ cell b i ≠ ' ' ∧
        cell s e = cell b i ∧ cell s i = cell b e ∧
        ∀ j, j < 16 → (cell s j ≠ cell b j ↔ (j = e ∨ j = i)) := by
  have hidx : b.indexOf ' ' < b.length := List.indexOf_lt_length.mpr hblank
  have he16 : b.indexOf ' ' < 16 := by omega
  have hce : cell b (b.indexOf ' ') = ' ' := cell_indexOf_blank b hidx
  constructor
  · rw [get_next_states_eq, if_neg (by omega), List.length_map]
    have hlt : ((List.range 16).filter (movable b (b.indexOf ' '))).length
        < (List.range 16).length := by
      rw [List.length_filter_lt_length_iff_exists]
      refine ⟨b.indexOf ' ', List.mem_range.mpr he16, ?_⟩
      intro hm
      exact (movable_ne b _ _ hce hm).2 rfl
    rw [List.length_range] at hlt
    omega
  · intro s hs
    rw [mem_get_next_states] at hs
    obtain ⟨_, i, hi, hm, rfl⟩ := hs
    obtain ⟨hne, hie⟩ := movable_ne b _ _ hce hm
    refine ⟨by simp [hlen], b.indexOf ' ', i, he16, hi, hce, hne, ?_, ?_, ?_⟩
    · rw [cell_set, cell_set]
      simp [hie, hidx]
    · rw [cell_set]
      simp [hlen, hi, hce]
    · intro j hj
      rw [cell_set, cell_set]
      simp only [List.length_set, hlen, hi, he16, and_true]
      by_cases hij : i = j
      · subst hij
        simp [hne.symm]
      · by_cases hej : b.indexOf ' ' = j
        · subst hej
          simp [hij, hce, hne]
        · have h1 : ¬ j = i := fun h => hij h.symm
          have h2 : ¬ j = b.indexOf ' ' := fun h => hej h.symm
          simp [hij, hej, h1, h2]

/-- Witness for `get_next_states_bound_and_swap`: a board with its blank at cell 2
has five successors. -/
theorem get_next_states_bound_and_swap_witness :
    (['K','Q',' ','R','R','R','R','B','B','B','B','N','N','N','N','K'] : Board).length = 16 ∧
    (get_next_states
      ['K','Q',' ','R','R','R','R','B','B','B','B','N','N','N','N','K']).length ≤ 15 :=
  ⟨by decide, (get_next_states_bound_and_swap _ (by decide) (by decide)).1⟩

/-! ## The priority queue -/

theorem exists_least_f (pq : List State) (h : pq ≠ []) :
    ∃ s, s ∈ pq ∧ ∀ n, n ∈ pq → s.f_score ≤ n.f_score := by
  induction pq with
  | nil => exact absurd rfl h
  | cons a l ih =>
    by_cases hl : l = []
    · subst hl
      exact ⟨a, by simp, by simp⟩
    · obtain ⟨s, hs, hmin⟩ := ih hl
      by_cases hle : a.f_score ≤ s.f_score
      · refine ⟨a, by simp, ?_⟩
        intro n hn
        rcases List.mem_cons.mp hn with rfl | hn
        · exact le_refl _
        · exact le_trans hle (hmin n hn)
      · refine ⟨s, List.mem_cons_of_mem _ hs, ?_⟩
        intro n hn
        rcases List.mem_cons.mp hn with rfl | hn
        · omega
        · exact hmin n hn

theorem mem_top_positions {pq : List State} {i : Nat} :
    i ∈ top_positions pq ↔
      ∃ h : i < pq.length, ∀ n, n ∈ pq → (pq.get ⟨i, h⟩).f_score ≤ n.f_score := by
  unfold top_positions
  simp only [List.mem_filter, List.mem_range]
  constructor
  · rintro ⟨hi, hp⟩
    refine ⟨hi, ?_⟩
    rw [List.getElem?_eq_getElem hi] at hp
    simp only [is_top, List.all_eq_true, decide_eq_true_eq] at hp
    exact hp
  · rintro ⟨hi, hp⟩
    refine ⟨hi, ?_⟩
    rw [List.getElem?_eq_getElem hi]
    simp only [is_top, List.all_eq_true, decide_eq_true_eq]
    exact hp

theorem top_positions_ne_nil (pq : List State) (h : pq ≠ []) : top_positions pq ≠ [] := by
  obtain ⟨s, hs, hmin⟩ := exists_least_f pq h
  obtain ⟨i, hi, rfl⟩ := List.getElem_of_mem hs
  intro hnil
  have : i ∈ top_positions pq := mem_top_positions.mpr ⟨hi, hmin⟩
  rw [hnil] at this
  exact List.not_mem_nil _ this

theorem pq_pop_eq_none_iff (choice : Nat) (pq : List State) :
    pq_pop choice pq = none ↔ pq = [] := by
  constructor
  · intro hnone
    by_contra hne
    have htop := top_positions_ne_nil pq hne
    have hpos : 0 < (top_positions pq).length := List.length_pos.mpr htop
    have hlt : choice % (top_positions pq).length < (top_positions pq).length :=
      Nat.mod_lt _ hpos
    have hmem : (top_positions pq)[choice % (top_positions pq).length] ∈ top_positions pq :=
      List.getElem_mem hlt
    obtain ⟨hi, -⟩ := mem_top_positions.mp hmem
    unfold pq_pop at hnone
    rw [List.getElem?_eq_getElem hlt] at hnone
    simp only [List.getElem?_eq_getElem hi] at hnone
    exact Option.noConfusion hnone
  · rintro rfl
    rfl

theorem pq_pop_spec {choice : Nat} {pq : List State} {current : State} {rest : List State}
    (h : pq_pop choice pq = some (current, rest)) : PopSpec pq current rest := by
  unfold pq_pop at h
  split at h
  · exact Option.noConfusion h
  · rename_i i hi
    have hmem : i ∈ top_positions pq := List.getElem?_mem hi
    obtain ⟨hlt, hmin⟩ := mem_top_positions.mp hmem
    simp only [List.getElem?_eq_getElem hlt, Option.some.injEq, Prod.mk.injEq] at h
    obtain ⟨rfl, rfl⟩ := h
    refine ⟨List.getElem_mem hlt, hmin, ?_, ?_, ?_⟩
    · intro n hn
      obtain ⟨j, hj, rfl⟩ := List.getElem_of_mem hn
      by_cases hji : j = i
      · subst hji; exact Or.inl rfl
      · exact Or.inr (List.mem_eraseIdx_iff_getElem.mpr ⟨j, hj, hji, rfl⟩)
    · intro n hn
      obtain ⟨j, hj, -, rfl⟩ := List.mem_eraseIdx_iff_getElem.mp hn
      exact List.getElem_mem hj
    · exact List.length_eraseIdx_add_one hlt

/-- The proof rule for the search loop: an invariant of the queue and the
visited set that every iteration keeps yields a property of the result. -/
theorem search_loop_induct (target : Nat) (Inv : List State → List Board → Prop)
    (Post : Option (List Board) → Prop)
    (hnone : Post none)
    (hempty : ∀ V, Inv [] V → Post (some []))
    (hgoal : ∀ F V current rest, Inv F V → PopSpec F current rest → current.board ∉ V →
      is_goal_state target current.board = true → Post (some current.path))
    (hdiscard : ∀ F V current rest, Inv F V → PopSpec F current rest → current.board ∈ V →
      Inv rest V)
    (hexpand : ∀ F V current rest, Inv F V → PopSpec F current rest → current.board ∉ V →
      is_goal_state target current.board = false →
      Inv (rest ++ push_successors target current (current.board :: V)) (current.board :: V)) :
    ∀ (fuel : Nat) (pick : Nat → Nat) (F : List State) (V : List Board),
      Inv F V → Post (search_loop target pick fuel F V) := by
  intro fuel
  induction fuel with
  | zero => intro pick F V _; exact hnone
  | succ fuel ih =>
    intro pick F V hinv
    unfold search_loop
    cases hpop : pq_pop (pick 0) F with
    | none =>
      have hF : F = [] := (pq_pop_eq_none_iff _ _).mp hpop
      subst hF
      exact hempty V hinv
    | some cr =>
      obtain ⟨current, rest⟩ := cr
      have hspec := pq_pop_spec hpop
      simp only
      by_cases hvis : current.board ∈ V
      · rw [if_pos hvis]
        exact ih _ _ _ (hdiscard F V current rest hinv hspec hvis)
      · rw [if_neg hvis]
        by_cases hg : is_goal_state target current.board = true
        · rw [if_pos hg]
          exact hgoal F V current rest hinv hspec hvis hg
        · rw [if_neg hg]
          exact ih _ _ _ (hexpand F V current rest hinv hspec hvis (by simpa using hg))

/-! ## The search loop: invariants -/

theorem mem_push_successors {target : Nat} {current n : State} {V : List Board} :
    n ∈ push_successors target current V ↔
      ∃ s, s ∈ get_next_states current.board ∧ s ∉ V ∧
        n = { f_score := (current.g_score + 1) + calculate_heuristic s target
              g_score := current.g_score + 1
              path := current.path ++ [s]
              board := s } := by
  unfold push_successors
  simp only [List.mem_map, List.mem_filter, decide_eq_true_eq]
  constructor
  · rintro ⟨s, ⟨hs, hv⟩, rfl⟩
    exact ⟨s, hs, hv, rfl⟩
  · rintro ⟨s, hs, hv, rfl⟩
    exact ⟨s, ⟨hs, hv⟩, rfl⟩

theorem nodeOk_path_ne_nil {start : Board} {target : Nat} {n : State}
    (h : NodeOk start target n) : n.path ≠ [] := by
  intro hnil
  have := h.head
  rw [hnil] at this
  exact Option.noConfusion this

theorem nodeOk_initial (start : Board) (target : Nat) :
    NodeOk start target (initial_state start target) where
  head := rfl
  last := rfl
  legal := List.chain'_singleton _
  reach := Reach.refl
  len := rfl
  f_eq := by simp [initial_state]

theorem nodeOk_child {start : Board} {target : Nat} {current : State} {s : Board}
    (h : NodeOk start target current) (hs : s ∈ get_next_states current.board) :
    NodeOk start target
      { f_score := (current.g_score + 1) + calculate_heuristic s target
        g_score := current.g_score + 1
        path := current.path ++ [s]
        board := s } where
  head := by
    have hne := nodeOk_path_ne_nil h
    simp only
    rw [List.head?_append_of_ne_nil _ hne]
    exact h.head
  last := by simp
  legal := by
    unfold LegalPath
    apply List.Chain'.append h.legal (List.chain'_singleton _)
    intro x hx y hy
    rw [h.last] at hx
    simp only [Option.mem_def, Option.some.injEq] at hx
    simp only [List.head?_cons, Option.mem_def, Option.some.injEq] at hy
    subst hx; subst hy
    exact hs
  reach := by
    have hne := nodeOk_path_ne_nil h
    have hpos : 0 < current.path.length := List.length_pos.mpr hne
    have hlen : (current.path ++ [s]).length - 1 = (current.path.length - 1) + 1 := by
      simp only [List.length_append, List.length_singleton]
      omega
    simp only
    rw [hlen]
    exact Reach.step h.reach hs
  len := by
    have := h.len
    simp only [List.length_append, List.length_singleton, Nat.cast_add, Nat.cast_one]
    omega
  f_eq := rfl

theorem searchInv_initial (start : Board) (target : Nat) :
    SearchInv start target [initial_state start target] [] where
  nodes := by
    intro n hn
    rw [List.mem_singleton] at hn
    subst hn
    exact nodeOk_initial start target
  start_covered := Or.inr ⟨initial_state start target, by simp, rfl, rfl⟩
  closed := by intro v hv; exact absurd hv (List.not_mem_nil _)
  no_goal := by intro v hv; exact absurd hv (List.not_mem_nil _)

theorem searchInv_discard {start : Board} {target : Nat} {F : List State} {V : List Board}
    {current : State} {rest : List State} (hinv : SearchInv start target F V)
    (hpop : PopSpec F current rest) (hvis : current.board ∈ V) :
    SearchInv start target rest V where
  nodes := fun n hn => hinv.nodes n (hpop.sub n hn)
  start_covered := by
    rcases hinv.start_covered with h | ⟨n, hn, hb, hg⟩
    · exact Or.inl h
    · rcases hpop.split n hn with rfl | hr
      · exact Or.inl (hb ▸ hvis)
      · exact Or.inr ⟨n, hr, hb, hg⟩
  closed := by
    intro v hv s hs
    rcases hinv.closed v hv s hs with h | ⟨n, hn, hb⟩
    · exact Or.inl h
    · rcases hpop.split n hn with rfl | hr
      · exact Or.inl (hb ▸ hvis)
      · exact Or.inr ⟨n, hr, hb⟩
  no_goal := hinv.no_goal

theorem searchInv_expand {start : Board} {target : Nat} {F : List State} {V : List Board}
    {current : State} {rest : List State} (hinv : SearchInv start target F V)
    (hpop : PopSpec F current rest)
    (hg : is_goal_state target current.board = false) :
    SearchInv start target
      (rest ++ push_successors target current (current.board :: V)) (current.board :: V) where
  nodes := by
    intro n hn
    rcases List.mem_append.mp hn with hr | hc
    · exact hinv.nodes n (hpop.sub n hr)
    · obtain ⟨s, hs, -, rfl⟩ := mem_push_successors.mp hc
      exact nodeOk_child (hinv.nodes current hpop.mem) hs
  start_covered := by
    rcases hinv.start_covered with h | ⟨n, hn, hb, hg0⟩
    · exact Or.inl (List.mem_cons_of_mem _ h)
    · rcases hpop.split n hn with rfl | hr
      · exact Or.inl (hb ▸ List.mem_cons_self _ _)
      · exact Or.inr ⟨n, List.mem_append_left _ hr, hb, hg0⟩
  closed := by
    intro v hv s hs
    by_cases hsv : s ∈ current.board :: V
    · exact Or.inl hsv
    · right
      rcases List.mem_cons.mp hv with rfl | hv
      · exact ⟨_, List.mem_append_right _ (mem_push_successors.mpr ⟨s, hs, hsv, rfl⟩), rfl⟩
      · rcases hinv.closed v hv s hs with h | ⟨n, hn, hb⟩
        · exact absurd (List.mem_cons_of_mem _ h) hsv
        · rcases hpop.split n hn with rfl | hr
          · exact absurd (hb ▸ List.mem_cons_self _ _) hsv
          · exact ⟨n, List.mem_append_left _ hr, hb⟩
  no_goal := by
    intro v hv
    rcases List.mem_cons.mp hv with rfl | hv
    · exact hg
    · exact hinv.no_goal v hv

theorem searchInv_all_visited {start : Board} {target : Nat} {V : List Board}
    (hinv : SearchInv start target [] V) : ∀ m b, Reach start m b → b ∈ V := by
  intro m b hr
  induction hr with
  | refl =>
    rcases hinv.start_covered with h | ⟨n, hn, -⟩
    · exact h
    · exact absurd hn (List.not_mem_nil _)
  | step _ hs ih =>
    rcases hinv.closed _ ih _ hs with h | ⟨n, hn, -⟩
    · exact h
    · exact absurd hn (List.not_mem_nil _)

/-! ## Moves permute the cells -/

theorem count_set_set_swap (b : Board) (e i : Nat) (c : Char) (he : e < b.length)
    (hi : i < b.length) (hie : i ≠ e) :
    ((b.set e b[i]).set i b[e]).count c = b.count c := by
  have hi2 : i < (b.set e b[i]).length := by simpa using hi
  rw [List.count_set _ _ _ _ hi2, List.count_set _ _ _ _ he]
  rw [List.getElem_set_ne (Ne.symm hie)]
  have h1 : (if (b[e] == c) = true then 1 else 0) ≤ b.count c := by
    split
    · rename_i h
      have : c ∈ b := by
        have := List.getElem_mem he
        simpa [beq_iff_eq.mp h] using (beq_iff_eq.mp h ▸ this)
      exact List.count_pos_iff.mpr this
    · exact Nat.zero_le _
  by_cases hx : (b[i] == c) = true <;> by_cases hy : (b[e] == c) = true <;>
    simp only [hx, hy, if_true, if_false] at h1 ⊢ <;> omega

theorem perm_of_mem_get_next_states {b s : Board} (hlen : b.length = 16)
    (hs : s ∈ get_next_states b) : s.Perm b := by
  rw [mem_get_next_states] at hs
  obtain ⟨he, i, hi, hm, rfl⟩ := hs
  have hce := cell_indexOf_blank b he
  obtain ⟨-, hie⟩ := movable_ne b _ _ hce hm
  have hil : i < b.length := by omega
  rw [List.perm_iff_count]
  intro c
  have h1 : cell b i = b[i] := cell_eq_getElem b i hil
  have h2 : b[b.indexOf ' '] = ' ' := by
    rw [← cell_eq_getElem b _ he, hce]
  have h3 : (b.set (b.indexOf ' ') (cell b i)).set i ' '
      = (b.set (b.indexOf ' ') b[i]).set i b[b.indexOf ' '] := by
    rw [h1, h2]
  rw [h3]
  exact count_set_set_swap b _ i c he hil hie

theorem perm_of_reach {a b : Board} {m : Nat} (hlen : a.length = 16) (hr : Reach a m b) :
    b.Perm a := by
  induction hr with
  | refl => exact List.Perm.refl _
  | step _ hs ih =>
    have hl := ih.length_eq
    exact (perm_of_mem_get_next_states (by omega) hs).trans ih

/-! ## Termination of the search loop -/

theorem length_le_factorial_of_perm (start : Board) (V : List Board) (hnd : V.Nodup)
    (hperm : ∀ v, v ∈ V → v.Perm start) : V.length ≤ Nat.factorial start.length := by
  have hsub : V ⊆ start.permutations := fun v hv => List.mem_permutations.mpr (hperm v hv)
  have h := (List.subperm_of_subset hnd hsub).length_le
  rw [List.length_permutations] at h
  exact h

theorem length_push_successors_le (target : Nat) (current : State) (V : List Board) :
    (push_successors target current V).length ≤ 16 := by
  unfold push_successors
  rw [List.length_map]
  exact le_trans (List.length_filter_le _ _) (length_get_next_states_le _)

/-- The loop stops: on boards that are permutations of a 16-cell board, every
iteration either shortens the queue or adds a new board to the visited set, so
`fuel` beyond `|F| + 17 * (16! - |V|)` iterations is never used up. -/
theorem search_loop_ne_none (start : Board) (target : Nat) (hlen : start.length = 16) :
    ∀ (fuel : Nat) (pick : Nat → Nat) (F : List State) (V : List Board),
      V.Nodup → (∀ v, v ∈ V → v.Perm start) → (∀ n, n ∈ F → n.board.Perm start) →
      F.length + 17 * (Nat.factorial 16 - V.length) < fuel →
      search_loop target pick fuel F V ≠ none := by
  intro fuel
  induction fuel with
  | zero => intro pick F V _ _ _ h; exact absurd h (Nat.not_lt_zero _)
  | succ fuel ih =>
    intro pick F V hnd hV hF hfuel
    unfold search_loop
    cases hpop : pq_pop (pick 0) F with
    | none => simp
    | some cr =>
      obtain ⟨current, rest⟩ := cr
      have hspec := pq_pop_spec hpop
      simp only
      have hlenF := hspec.length
      by_cases hvis : current.board ∈ V
      · rw [if_pos hvis]
        apply ih _ _ _ hnd hV (fun n hn => hF n (hspec.sub n hn))
        omega
      · rw [if_neg hvis]
        by_cases hg : is_goal_state target current.board = true
        · rw [if_pos hg]; simp
        · rw [if_neg hg]
          have hcur : current.board.Perm start := hF current hspec.mem
          have hnd2 : (current.board :: V).Nodup := List.nodup_cons.mpr ⟨hvis, hnd⟩
          have hV2 : ∀ v, v ∈ current.board :: V → v.Perm start := by
            intro v hv
            rcases List.mem_cons.mp hv with rfl | hv
            · exact hcur
            · exact hV v hv
          have hbound := length_le_factorial_of_perm start _ hnd2 hV2
          rw [hlen, List.length_cons] at hbound
          apply ih _ _ _ hnd2 hV2
          · intro n hn
            rcases List.mem_append.mp hn with hr | hc
            · exact hF n (hspec.sub n hr)
            · obtain ⟨s, hs, -, rfl⟩ := mem_push_successors.mp hc
              have hl := hcur.length_eq
              exact (perm_of_mem_get_next_states (by omega) hs).trans hcur
          · have hpush := length_push_successors_le target current (current.board :: V)
            rw [List.length_append, List.length_cons]
            omega

theorem search_fuel_eq : search_fuel = 17 * Nat.factorial 16 + 2 := by
  unfold search_fuel
  decide

/-- On a 16-cell board `solve_queens_quadrille` returns: the loop finishes
within `search_fuel` iterations, whatever the queue does on ties. -/
theorem solve_queens_quadrille_ne_none (pick : Nat → Nat) (start : Board) (target : Nat)
    (hlen : start.length = 16) : solve_queens_quadrille pick start target ≠ none := by
  unfold solve_queens_quadrille
  apply search_loop_ne_none start target hlen
  · exact List.nodup_nil
  · intro v hv; exact absurd hv (List.not_mem_nil _)
  · intro n hn
    rw [List.mem_singleton] at hn
    subst hn
    exact List.Perm.refl _
  · rw [search_fuel_eq]
    simp only [List.length_singleton, List.length_nil, Nat.sub_zero]
    omega

/-! ## What the search returns -/

/-- The result of the loop, started in a state that satisfies the invariant:
either the empty path, and then no goal board is reachable, or the path of a
queued state whose board is a goal. -/
theorem search_loop_result (start : Board) (target : Nat) :
    ∀ (fuel : Nat) (pick : Nat → Nat) (F : List State) (V : List Board),
      SearchInv start target F V →
      ∀ p, search_loop target pick fuel F V = some p →
        (p = [] ∧ ∀ m b, Reach start m b → is_goal_state target b = false) ∨
        (∃ n, NodeOk start target n ∧ n.path = p ∧ is_goal_state target n.board = true) := by
  refine search_loop_induct target (SearchInv start target)
    (fun r => ∀ p, r = some p →
      (p = [] ∧ ∀ m b, Reach start m b → is_goal_state target b = false) ∨
      (∃ n, NodeOk start target n ∧ n.path = p ∧ is_goal_state target n.board = true))
    ?_ ?_ ?_ ?_ ?_
  · intro p hp
    exact Option.noConfusion hp
  · intro V hinv p hp
    simp only [Option.some.injEq] at hp
    subst hp
    left
    refine ⟨rfl, ?_⟩
    intro m b hr
    exact hinv.no_goal b (searchInv_all_visited hinv m b hr)
  · intro F V current rest hinv hpop _ hg p hp
    simp only [Option.some.injEq] at hp
    right
    exact ⟨current, hinv.nodes current hpop.mem, hp, hg⟩
  · intro F V current rest hinv hpop hvis
    exact searchInv_discard hinv hpop hvis
  · intro F V current rest hinv hpop _ hg
    exact searchInv_expand hinv hpop hg

theorem solve_result (pick : Nat → Nat) (start : Board) (target : Nat) (p : List Board)
    (h : solve_queens_quadrille pick start target = some p) :
    (p = [] ∧ ∀ m b, Reach start m b → is_goal_state target b = false) ∨
    (∃ n, NodeOk start target n ∧ n.path = p ∧ is_goal_state target n.board = true) :=
  search_loop_result start target search_fuel pick _ _ (searchInv_initial start target) p h

theorem solve_returns (pick : Nat → Nat) (start : Board) (target : Nat)
    (hlen : start.length = 16) : ∃ p, solve_queens_quadrille pick start target = some p := by
  cases h : solve_queens_quadrille pick start target with
  | none => exact absurd h (solve_queens_quadrille_ne_none pick start target hlen)
  | some p => exact ⟨p, rfl⟩

theorem pq_pop_singleton (choice : Nat) (s : State) : pq_pop choice [s] = some (s, []) := by
  cases h : pq_pop choice [s] with
  | none =>
    have := (pq_pop_eq_none_iff choice [s]).mp h
    exact absurd this (List.cons_ne_nil _ _)
  | some cr =>
    obtain ⟨current, rest⟩ := cr
    have hspec := pq_pop_spec h
    have h1 : current = s := List.mem_singleton.mp hspec.mem
    have h2 : rest = [] := by
      have := hspec.length
      simp only [List.length_singleton] at this
      exact List.length_eq_zero.mp (by omega)
    rw [h1, h2]

theorem solve_of_goal_start (pick : Nat → Nat) (start : Board) (target : Nat)
    (hg : is_goal_state target start = true) :
    solve_queens_quadrille pick start target = some [start] := by
  unfold solve_queens_quadrille
  have hf : search_fuel = 355687428096001 + 1 := rfl
  rw [hf, search_loop, pq_pop_singleton]
  simp [hg]

/-- Claim C2 (every step of a returned path is one legal move): on a 16-cell
start board with a target in [0,16), `solve_queens_quadrille` returns a path
in which each board after the first is an element of `get_next_states` of the
board immediately before it. -/
theorem returned_path_steps_legal (pick : Nat → Nat) (start : Board) (target : Nat)
    (hlen : start.length = 16) (_ht : target < 16) :
    ∃ path, solve_queens_quadrille pick start target = some path ∧
      List.Chain' (fun a b => b ∈ get_next_states a) path := by
  obtain ⟨p, hp⟩ := solve_returns pick start target hlen
  refine ⟨p, hp, ?_⟩
  rcases solve_result pick start target p hp with ⟨rfl, -⟩ | ⟨n, hn, rfl, -⟩
  · exact List.chain'_nil
  · exact hn.legal

/-- Witness for `returned_path_steps_legal`: the Queen at cell 1 next to the
blank at cell 2, target cell 2. -/
theorem returned_path_steps_legal_witness :
    ∃ path, solve_queens_quadrille (fun _ => 0)
        ['K','Q',' ','R','R','R','R','B','B','B','B','N','N','N','N','K'] 2 = some path ∧
      List.Chain' (fun a b => b ∈ get_next_states a) path :=
  returned_path_steps_legal (fun _ => 0) _ 2 (by decide) (by decide)

/-- Claim C3 (endpoints of a returned path): on a 16-cell start board with a
target `t` in [0,16), a non-empty returned path begins with the start board
and ends with a board that has 'Q' at cell `t`; and when the start board
already has 'Q' at `t` the result is exactly the one-element path `[start]`. -/
theorem returned_path_endpoints (pick : Nat → Nat) (start : Board) (target : Nat)
    (hlen : start.length = 16) (_ht : target < 16) :
    ∃ path, solve_queens_quadrille pick start target = some path ∧
      (path ≠ [] →
        path.head? = some start ∧
        ∃ last, path.getLast? = some last ∧ cell last target = 'Q') ∧
      (cell start target = 'Q' → path = [start]) := by
  obtain ⟨p, hp⟩ := solve_returns pick start target hlen
  refine ⟨p, hp, ?_, ?_⟩
  · intro hne
    rcases solve_result pick start target p hp with ⟨rfl, -⟩ | ⟨n, hn, rfl, hg⟩
    · exact absurd rfl hne
    · refine ⟨hn.head, n.board, hn.last, ?_⟩
      simpa [is_goal_state] using hg
  · intro hq
    have hg : is_goal_state target start = true := by simpa [is_goal_state] using hq
    rw [solve_of_goal_start pick start target hg] at hp
    simp only [Option.some.injEq] at hp
    exact hp.symm

/-- Witness for `returned_path_endpoints`: the Queen already at the target cell 1. -/
theorem returned_path_endpoints_witness :
    ∃ path, solve_queens_quadrille (fun _ => 0)
        ['K','Q',' ','R','R','R','R','B','B','B','B','N','N','N','N','K'] 1 = some path ∧
      (path ≠ [] →
        path.head? = some ['K','Q',' ','R','R','R','R','B','B','B','B','N','N','N','N','K'] ∧
        ∃ last, path.getLast? = some last ∧ cell last 1 = 'Q') ∧
      (cell ['K','Q',' ','R','R','R','R','B','B','B','B','N','N','N','N','K'] 1 = 'Q' →
        path = [['K','Q',' ','R','R','R','R','B','B','B','B','N','N','N','N','K']]) :=
  returned_path_endpoints (fun _ => 0) _ 1 (by decide) (by decide)

/-- Claim C4 (the no-solution signal is exact): on a 16-cell start board with a
target `t` in [0,16), `solve_queens_quadrille` returns, and it returns the
empty path if and only if no board with 'Q' at cell `t` is reachable from the
start board by zero or more `get_next_states` steps. -/
theorem empty_path_iff_unreachable (pick : Nat → Nat) (start : Board) (target : Nat)
    (hlen : start.length = 16) (_ht : target < 16) :
    solve_queens_quadrille pick start target ≠ none ∧
    (solve_queens_quadrille pick start target = some [] ↔
      ¬ ∃ m b, Reach start m b ∧ cell b target = 'Q') := by
  refine ⟨solve_queens_quadrille_ne_none pick start target hlen, ?_, ?_⟩
  · intro h
    rintro ⟨m, b, hr, hq⟩
    rcases solve_result pick start target [] h with ⟨-, hno⟩ | ⟨n, hn, hpath, -⟩
    · have := hno m b hr
      simp [is_goal_state, hq] at this
    · exact nodeOk_path_ne_nil hn hpath
  · intro hno
    obtain ⟨p, hp⟩ := solve_returns pick start target hlen
    rcases solve_result pick start target p hp with ⟨rfl, -⟩ | ⟨n, hn, -, hg⟩
    · exact hp
    · exfalso
      apply hno
      exact ⟨_, n.board, hn.reach, by simpa [is_goal_state] using hg⟩

/-- Witness for `empty_path_iff_unreachable`: a board of sixteen Kings has no
blank and no Queen; the search returns the empty path. -/
theorem empty_path_iff_unreachable_witness :
    solve_queens_quadrille (fun _ => 0)
        ['K','K','K','K','K','K','K','K','K','K','K','K','K','K','K','K'] 0 = some [] ∧
    ¬ ∃ m b, Reach ['K','K','K','K','K','K','K','K','K','K','K','K','K','K','K','K'] m b ∧
      cell b 0 = 'Q' :=
  ⟨by decide,
   (empty_path_iff_unreachable (fun _ => 0) _ 0 (by decide) (by decide)).2.mp (by decide)⟩

/-! ## The heuristic -/

theorem chebyshev_distance_natCast (a b : Nat) :
    chebyshev_distance (a : Int) (b : Int) =
      max |((a / 4 : Nat) : Int) - ((b / 4 : Nat) : Int)|
        |((a % 4 : Nat) : Int) - ((b % 4 : Nat) : Int)| := rfl

theorem chebyshev_distance_nonneg (a b : Int) : 0 ≤ chebyshev_distance a b :=
  le_max_of_le_left (abs_nonneg _)

theorem chebyshev_distance_self (a : Int) : chebyshev_distance a a = 0 := by
  simp [chebyshev_distance]

theorem calculate_heuristic_nonneg (b : Board) (t : Nat) : 0 ≤ calculate_heuristic b t := by
  unfold calculate_heuristic
  split
  · decide
  · exact chebyshev_distance_nonneg _ _

theorem two_le_count_of_index (a : Char) (l : List Char) (i j : Nat) (hij : i < j)
    (hi : l[i]? = some a) (hj : l[j]? = some a) : 2 ≤ l.count a := by
  induction l generalizing i j with
  | nil => simp at hi
  | cons x xs ih =>
    cases j with
    | zero => exact absurd hij (Nat.not_lt_zero _)
    | succ j =>
      simp only [List.getElem?_cons_succ] at hj
      cases i with
      | zero =>
        simp only [List.getElem?_cons_zero, Option.some.injEq] at hi
        subst hi
        have hmem : x ∈ xs := List.getElem?_mem hj
        have := List.count_pos_iff.mpr hmem
        rw [List.count_cons_self]
        omega
      | succ i =>
        simp only [List.getElem?_cons_succ] at hi
        have := ih i j (by omega) hi hj
        have hle := List.count_le_count_cons (a := a) (b := x) (l := xs)
        omega

theorem cell_eq_some (b : Board) (i : Nat) (hi : i < b.length) : b[i]? = some (cell b i) := by
  rw [cell_eq_getElem b i hi, List.getElem?_eq_getElem hi]

theorem queen_unique (b : Board) (i j : Nat) (hcount : b.count 'Q' = 1) (hi : i < b.length)
    (hj : j < b.length) (hqi : cell b i = 'Q') (hqj : cell b j = 'Q') : i = j := by
  have h1 := cell_eq_some b i hi
  have h2 := cell_eq_some b j hj
  rw [hqi] at h1
  rw [hqj] at h2
  rcases Nat.lt_trichotomy i j with h | h | h
  · have := two_le_count_of_index 'Q' b i j h h1 h2
    omega
  · exact h
  · have := two_le_count_of_index 'Q' b j i h h2 h1
    omega

theorem exists_queen (b : Board) (hlen : b.length = 16) (hcount : b.count 'Q' = 1) :
    ∃ q, q < 16 ∧ cell b q = 'Q' := by
  have hmem : 'Q' ∈ b := List.count_pos_iff.mp (by omega)
  obtain ⟨q, hq, hbq⟩ := List.getElem_of_mem hmem
  exact ⟨q, by omega, by rw [cell_eq_getElem b q hq, hbq]⟩

theorem find_queen_eq (b : Board) (q : Nat) (hlen : b.length = 16) (hcount : b.count 'Q' = 1)
    (hq : q < 16) (hbq : cell b q = 'Q') : find_queen b = some q := by
  unfold find_queen
  rw [List.find?_range_eq_some]
  refine ⟨by simp [hbq], List.mem_range.mpr hq, ?_⟩
  intro j hj
  simp only [Bool.not_eq_true', beq_eq_false_iff_ne, ne_eq]
  intro hbj
  have := queen_unique b j q hcount (by omega) (by omega) hbj hbq
  omega

theorem calculate_heuristic_eq (b : Board) (q t : Nat) (hlen : b.length = 16)
    (hcount : b.count 'Q' = 1) (hq : q < 16) (hbq : cell b q = 'Q') :
    calculate_heuristic b t = chebyshev_distance (q : Int) (t : Int) := by
  unfold calculate_heuristic
  rw [find_queen_eq b q hlen hcount hq hbq]

theorem calculate_heuristic_goal (b : Board) (t : Nat) (hlen : b.length = 16)
    (hcount : b.count 'Q' = 1) (ht : t < 16) (hg : is_goal_state t b = true) :
    calculate_heuristic b t = 0 := by
  have hbq : cell b t = 'Q' := by simpa [is_goal_state] using hg
  rw [calculate_heuristic_eq b t t hlen hcount ht hbq, chebyshev_distance_self]

theorem chebyshev_step (ri ci re ce rt ct : Int) (hadj : max |ri - re| |ci - ce| = 1) :
    max |ri - rt| |ci - ct| ≤ max |re - rt| |ce - ct| + 1 := by
  have h1 : |ri - re| ≤ 1 := hadj ▸ le_max_left _ _
  have h2 : |ci - ce| ≤ 1 := hadj ▸ le_max_right _ _
  rw [abs_le] at h1 h2
  have h3 : |ri - rt| ≤ |re - rt| + 1 := by
    rw [abs_le]
    have := le_abs_self (re - rt)
    have := neg_abs_le (re - rt)
    constructor <;> omega
  have h4 : |ci - ct| ≤ |ce - ct| + 1 := by
    rw [abs_le]
    have := le_abs_self (ce - ct)
    have := neg_abs_le (ce - ct)
    constructor <;> omega
  apply max_le
  · exact le_trans h3 (add_le_add_right (le_max_left _ _) 1)
  · exact le_trans h4 (add_le_add_right (le_max_right _ _) 1)

theorem movable_queen_adjacent (b : Board) (e i : Nat) (hm : movable b e i = true)
    (hq : cell b i = 'Q') :
    max |((i / 4 : Nat) : Int) - ((e / 4 : Nat) : Int)|
      |((i % 4 : Nat) : Int) - ((e % 4 : Nat) : Int)| = 1 := by
  unfold movable at hm
  rw [hq, is_valid_move_of_ne_knight 'Q' _ _ _ _ (by decide)] at hm
  simp only [Bool.and_eq_true, decide_eq_true_eq] at hm
  exact hm.2.1

/-- One move changes the heuristic by at most one on a 16-cell board with
exactly one Queen, and not at all unless the Queen is the piece moved. -/
theorem calculate_heuristic_step (b s : Board) (t : Nat) (hlen : b.length = 16)
    (hcount : b.count 'Q' = 1) (hs : s ∈ get_next_states b) :
    calculate_heuristic b t ≤ calculate_heuristic s t + 1 ∧
    calculate_heuristic s t ≤ calculate_heuristic b t + 1 := by
  have hperm := perm_of_mem_get_next_states hlen hs
  have hlen_s : s.length = 16 := by rw [hperm.length_eq, hlen]
  have hcount_s : s.count 'Q' = 1 := by rw [hperm.count_eq, hcount]
  rw [mem_get_next_states] at hs
  obtain ⟨he, i, hi, hm, hs_eq⟩ := hs
  have hce := cell_indexOf_blank b he
  obtain ⟨hne, hie⟩ := movable_ne b _ _ hce hm
  have he16 : b.indexOf ' ' < 16 := by omega
  obtain ⟨q, hq, hbq⟩ := exists_queen b hlen hcount
  by_cases hiq : cell b i = 'Q'
  · have hsq : cell s (b.indexOf ' ') = 'Q' := by
      rw [hs_eq, cell_set, cell_set]
      simp [hie, he, hiq]
    rw [calculate_heuristic_eq b i t hlen hcount hi hiq,
      calculate_heuristic_eq s _ t hlen_s hcount_s he16 hsq,
      chebyshev_distance_natCast, chebyshev_distance_natCast]
    have hadj := movable_queen_adjacent b _ i hm hiq
    constructor
    · exact chebyshev_step _ _ _ _ _ _ hadj
    · apply chebyshev_step
      rw [abs_sub_comm, abs_sub_comm (((b.indexOf ' ' % 4 : Nat) : Int))]
      exact hadj
  · have hqi : q ≠ i := by rintro rfl; exact hiq hbq
    have hqe : q ≠ b.indexOf ' ' := by
      rintro rfl
      rw [hce] at hbq
      revert hbq; decide
    have hsq : cell s q = 'Q' := by
      rw [hs_eq, cell_set, cell_set]
      simp [Ne.symm hqi, Ne.symm hqe, hbq]
    rw [calculate_heuristic_eq b q t hlen hcount hq hbq,
      calculate_heuristic_eq s q t hlen_s hcount_s hq hsq]
    constructor <;> omega

/-! ## Optimality of the search -/

theorem reach_invariants {start b : Board} {m : Nat} (hlen : start.length = 16)
    (hcount : start.count 'Q' = 1) (hr : Reach start m b) :
    b.length = 16 ∧ b.count 'Q' = 1 := by
  have hperm := perm_of_reach hlen hr
  exact ⟨by rw [hperm.length_eq, hlen], by rw [hperm.count_eq, hcount]⟩

/-- While the invariant holds, every board that is reachable in `m` moves and
not yet visited is announced in the queue by a state of `f_score` at most
`m` plus the heuristic of that board. -/
theorem frontier_bound {start : Board} {target : Nat} {F : List State} {V : List Board}
    (hlen : start.length = 16) (hcount : start.count 'Q' = 1)
    (hinv : SearchInv start target F V) (hdist : DistInv start F V) :
    ∀ (m : Nat) (b : Board), Reach start m b → b ∉ V →
      ∃ n, n ∈ F ∧ n.f_score ≤ (m : Int) + calculate_heuristic b target := by
  intro m b hr
  induction hr with
  | refl =>
    intro hnv
    rcases hinv.start_covered with h | ⟨n, hn, hb, hg⟩
    · exact absurd h hnv
    · refine ⟨n, hn, ?_⟩
      rw [(hinv.nodes n hn).f_eq, hb, hg]
      simp
  | @step k b' c hr' hs ih =>
    intro hnv
    obtain ⟨hlen', hcount'⟩ := reach_invariants hlen hcount hr'
    by_cases hb' : b' ∈ V
    · rcases hdist b' hb' c hs k hr' with h | ⟨n, hn, hb, hg⟩
      · exact absurd h hnv
      · refine ⟨n, hn, ?_⟩
        rw [(hinv.nodes n hn).f_eq, hb]
        push_cast
        omega
    · obtain ⟨n, hn, hf⟩ := ih hb'
      refine ⟨n, hn, ?_⟩
      have hstep := (calculate_heuristic_step b' c target hlen' hcount' hs).1
      push_cast
      omega

/-- A state popped with an unvisited board carries the least cost of any walk
to that board. -/
theorem popped_cost_least {start : Board} {target : Nat} {F : List State} {V : List Board}
    {current : State} {rest : List State}
    (hlen : start.length = 16) (hcount : start.count 'Q' = 1)
    (hinv : SearchInv start target F V) (hdist : DistInv start F V)
    (hpop : PopSpec F current rest) (hvis : current.board ∉ V) :
    ∀ m : Nat, Reach start m current.board → current.g_score ≤ (m : Int) := by
  intro m hr
  obtain ⟨n, hn, hf⟩ := frontier_bound hlen hcount hinv hdist m _ hr hvis
  have hle := hpop.least n hn
  have hfc := (hinv.nodes current hpop.mem).f_eq
  omega

theorem distInv_discard {start : Board} {F : List State} {V : List Board}
    {current : State} {rest : List State} (hdist : DistInv start F V)
    (hpop : PopSpec F current rest) (hvis : current.board ∈ V) :
    DistInv start rest V := by
  intro v hv s hs m hr
  rcases hdist v hv s hs m hr with h | ⟨n, hn, hb, hg⟩
  · exact Or.inl h
  · rcases hpop.split n hn with rfl | hrest
    · exact Or.inl (hb ▸ hvis)
    · exact Or.inr ⟨n, hrest, hb, hg⟩

theorem distInv_expand {start : Board} {target : Nat} {F : List State} {V : List Board}
    {current : State} {rest : List State}
    (hlen : start.length = 16) (hcount : start.count 'Q' = 1)
    (hinv : SearchInv start target F V) (hdist : DistInv start F V)
    (hpop : PopSpec F current rest) (hvis : current.board ∉ V) :
    DistInv start (rest ++ push_successors target current (current.board :: V))
      (current.board :: V) := by
  intro v hv s hs m hr
  by_cases hsv : s ∈ current.board :: V
  · exact Or.inl hsv
  · right
    rcases List.mem_cons.mp hv with rfl | hv
    · have hopt := popped_cost_least hlen hcount hinv hdist hpop hvis m hr
      refine ⟨_, List.mem_append_right _ (mem_push_successors.mpr ⟨s, hs, hsv, rfl⟩), rfl, ?_⟩
      simp only
      omega
    · rcases hdist v hv s hs m hr with h | ⟨n, hn, hb, hg⟩
      · exact absurd (List.mem_cons_of_mem _ h) hsv
      · rcases hpop.split n hn with rfl | hrest
        · exact absurd (hb ▸ List.mem_cons_self _ _) hsv
        · exact ⟨n, List.mem_append_left _ hrest, hb, hg⟩

/-- A non-empty path returned by the loop is no longer than any walk from the
start board to a goal board. -/
theorem search_loop_optimal (start : Board) (target : Nat) (hlen : start.length = 16)
    (hcount : start.count 'Q' = 1) (ht : target < 16) :
    ∀ (fuel : Nat) (pick : Nat → Nat) (F : List State) (V : List Board),
      SearchInv start target F V ∧ DistInv start F V →
      ∀ p, search_loop target pick fuel F V = some p → p ≠ [] →
        ∀ (m : Nat) (b : Board), Reach start m b → is_goal_state target b = true →
          p.length ≤ m + 1 := by
  refine search_loop_induct target (fun F V => SearchInv start target F V ∧ DistInv start F V)
    (fun r => ∀ p, r = some p → p ≠ [] →
      ∀ (m : Nat) (b : Board), Reach start m b → is_goal_state target b = true →
        p.length ≤ m + 1)
    ?_ ?_ ?_ ?_ ?_
  · intro p hp
    exact Option.noConfusion hp
  · intro V _ p hp hne
    simp only [Option.some.injEq] at hp
    exact absurd hp.symm hne
  · rintro F V current rest ⟨hinv, hdist⟩ hpop _ _ p hp _ m b hr hgb
    simp only [Option.some.injEq] at hp
    subst hp
    have hbv : b ∉ V := by
      intro hbV
      have := hinv.no_goal b hbV
      rw [hgb] at this
      exact Bool.noConfusion this
    obtain ⟨n, hn, hf⟩ := frontier_bound hlen hcount hinv hdist m b hr hbv
    obtain ⟨hlen_b, hcount_b⟩ := reach_invariants hlen hcount hr
    rw [calculate_heuristic_goal b target hlen_b hcount_b ht hgb] at hf
    have hle := hpop.least n hn
    have hnode := hinv.nodes current hpop.mem
    have hfc := hnode.f_eq
    have hnonneg := calculate_heuristic_nonneg current.board target
    have hl := hnode.len
    omega
  · rintro F V current rest ⟨hinv, hdist⟩ hpop hvis
    exact ⟨searchInv_discard hinv hpop hvis, distInv_discard hdist hpop hvis⟩
  · rintro F V current rest ⟨hinv, hdist⟩ hpop hvis hg
    exact ⟨searchInv_expand hinv hpop hg, distInv_expand hlen hcount hinv hdist hpop hvis⟩

/-- Claim C1 (optimality): on a 16-cell board with exactly one empty cell and
exactly one Queen and a target `t` in [0,16), `solve_queens_quadrille` returns,
and if the returned path is non-empty with `n` boards then `n - 1` is the
breadth-first distance from the start to the goal set: some board with the
Queen on `t` is reached in exactly `n - 1` legal moves, and no sequence of
fewer legal moves leads from the start to a board with the Queen on `t`. -/
theorem solve_queens_quadrille_optimal (pick : Nat → Nat) (start : Board) (target : Nat)
    (hlen : start.length = 16) (_hblank : start.count ' ' = 1)
    (hqueen : start.count 'Q' = 1) (ht : target < 16) :
    ∃ path, solve_queens_quadrille pick start target = some path ∧
      (path ≠ [] →
        (∃ g, Reach start (path.length - 1) g ∧ cell g target = 'Q') ∧
        ∀ (m : Nat) (b : Board), Reach start m b → cell b target = 'Q' →
          path.length - 1 ≤ m) := by
  obtain ⟨p, hp⟩ := solve_returns pick start target hlen
  refine ⟨p, hp, ?_⟩
  intro hne
  constructor
  · rcases solve_result pick start target p hp with ⟨rfl, -⟩ | ⟨n, hn, rfl, hg⟩
    · exact absurd rfl hne
    · exact ⟨n.board, hn.reach, by simpa [is_goal_state] using hg⟩
  · intro m b hr hq
    have hg : is_goal_state target b = true := by simpa [is_goal_state] using hq
    have hinit : SearchInv start target [initial_state start target] [] ∧
        DistInv start [initial_state start target] [] :=
      ⟨searchInv_initial start target, fun v hv => absurd hv (List.not_mem_nil _)⟩
    have := search_loop_optimal start target hlen hqueen ht search_fuel pick _ _ hinit p hp hne
      m b hr hg
    omega

/-- Witness for `solve_queens_quadrille_optimal`: the Queen at cell 1 next to
the blank at cell 2, target cell 2; the returned path has two boards. -/
theorem solve_queens_quadrille_optimal_witness :
    ∃ path, solve_queens_quadrille (fun _ => 0)
        ['K','Q',' ','R','R','R','R','B','B','B','B','N','N','N','N','K'] 2 = some path ∧
      (path ≠ [] →
        (∃ g, Reach ['K','Q',' ','R','R','R','R','B','B','B','B','N','N','N','N','K']
            (path.length - 1) g ∧ cell g 2 = 'Q') ∧
        ∀ (m : Nat) (b : Board),
          Reach ['K','Q',' ','R','R','R','R','B','B','B','B','N','N','N','N','K'] m b →
          cell b 2 = 'Q' → path.length - 1 ≤ m) :=
  solve_queens_quadrille_optimal (fun _ => 0) _ 2 (by decide) (by decide) (by decide)
    (by decide)

/-! ## Admissibility of the heuristic -/

theorem calculate_heuristic_le_add_moves {start b : Board} {m : Nat} (t : Nat)
    (hlen : start.length = 16) (hcount : start.count 'Q' = 1) (hr : Reach start m b) :
    calculate_heuristic start t ≤ calculate_heuristic b t + (m : Int) := by
  induction hr with
  | refl => simp
  | @step k b' c hr' hs ih =>
    obtain ⟨hlen', hcount'⟩ := reach_invariants hlen hcount hr'
    have hstep := (calculate_heuristic_step b' c t hlen' hcount' hs).1
    push_cast
    omega

/-- Claim C10, as the code has it (admissibility with exactly one Queen): for a
16-cell board with exactly one empty cell and exactly one Queen, whatever the
other pieces, and a target `t` in [0,16), `calculate_heuristic(board, t)` is
the Chebyshev distance from the Queen's cell to `t`, and it never exceeds the
number of legal moves of any sequence that leads to a board with 'Q' at `t`. -/
theorem calculate_heuristic_admissible (b : Board) (t : Nat) (hlen : b.length = 16)
    (_hblank : b.count ' ' = 1) (hqueen : b.count 'Q' = 1) (ht : t < 16) :
    (∃ q, q < 16 ∧ cell b q = 'Q' ∧
      calculate_heuristic b t =
        max |((q / 4 : Nat) : Int) - ((t / 4 : Nat) : Int)|
          |((q % 4 : Nat) : Int) - ((t % 4 : Nat) : Int)|) ∧
    ∀ (m : Nat) (g : Board), Reach b m g → cell g t = 'Q' →
      calculate_heuristic b t ≤ (m : Int) := by
  constructor
  · obtain ⟨q, hq, hbq⟩ := exists_queen b hlen hqueen
    refine ⟨q, hq, hbq, ?_⟩
    rw [calculate_heuristic_eq b q t hlen hqueen hq hbq, chebyshev_distance_natCast]
  · intro m g hr hq
    have hg : is_goal_state t g = true := by simpa [is_goal_state] using hq
    obtain ⟨hlen_g, hcount_g⟩ := reach_invariants hlen hqueen hr
    have h0 := calculate_heuristic_goal g t hlen_g hcount_g ht hg
    have := calculate_heuristic_le_add_moves t hlen hqueen hr
    omega

/-- Witness for `calculate_heuristic_admissible`: the Queen at cell 1, the
blank at cell 2, target cell 15; the heuristic is 3. -/
theorem calculate_heuristic_admissible_witness :
    calculate_heuristic ['K','Q',' ','R','R','R','R','B','B','B','B','N','N','N','N','K'] 15
      = 3 ∧
    ∀ (m : Nat) (g : Board),
      Reach ['K','Q',' ','R','R','R','R','B','B','B','B','N','N','N','N','K'] m g →
      cell g 15 = 'Q' →
      calculate_heuristic ['K','Q',' ','R','R','R','R','B','B','B','B','N','N','N','N','K'] 15
        ≤ (m : Int) :=
  ⟨by decide,
   (calculate_heuristic_admissible _ 15 (by decide) (by decide) (by decide) (by decide)).2⟩

/-- Counterexample to claim C10 as stated (any piece composition): the board
`two_queens_board` has 16 cells, exactly one empty cell and contains a Queen;
it already has 'Q' at the target cell 15, so zero moves reach the goal, yet
the heuristic, taken from the first Queen at cell 0, is 3. -/
theorem calculate_heuristic_not_admissible_two_queens :
    two_queens_board.length = 16 ∧ two_queens_board.count ' ' = 1 ∧
    'Q' ∈ two_queens_board ∧
    Reach two_queens_board 0 two_queens_board ∧ cell two_queens_board 15 = 'Q' ∧
    calculate_heuristic two_queens_board 15 = 3 ∧
    ¬ (calculate_heuristic two_queens_board 15 ≤ ((0 : Nat) : Int)) :=
  ⟨by decide, by decide, by decide, Reach.refl, by decide, by decide, by decide⟩

/-! ## Consistency of the heuristic -/

theorem cell_set_set (b : Board) (e i j : Nat) (p : Char) (he : e < b.length)
    (hi : i < b.length) :
    cell ((b.set e p).set i ' ') j = if i = j then ' ' else if e = j then p else cell b j := by
  rw [cell_set, cell_set]
  simp only [List.length_set, hi, he, and_true]

/-- When the piece moved is not the Queen, the heuristic does not change. -/
theorem calculate_heuristic_step_eq (b s : Board) (t : Nat) (hlen : b.length = 16)
    (hcount : b.count 'Q' = 1) (hs : s ∈ get_next_states b)
    (hpiece : cell s (b.indexOf ' ') ≠ 'Q') :
    calculate_heuristic s t = calculate_heuristic b t := by
  have hperm := perm_of_mem_get_next_states hlen hs
  have hlen_s : s.length = 16 := by rw [hperm.length_eq, hlen]
  have hcount_s : s.count 'Q' = 1 := by rw [hperm.count_eq, hcount]
  rw [mem_get_next_states] at hs
  obtain ⟨he, i, hi, hm, hs_eq⟩ := hs
  have hce := cell_indexOf_blank b he
  obtain ⟨hne, hie⟩ := movable_ne b _ _ hce hm
  have hil : i < b.length := by omega
  obtain ⟨q, hq, hbq⟩ := exists_queen b hlen hcount
  have hiq : cell b i ≠ 'Q' := by
    intro h
    apply hpiece
    rw [hs_eq, cell_set_set b _ i _ _ he hil]
    simp [hie, h]
  have hqi : q ≠ i := by rintro rfl; exact hiq hbq
  have hqe : q ≠ b.indexOf ' ' := by
    rintro rfl
    rw [hce] at hbq
    revert hbq; decide
  have hsq : cell s q = 'Q' := by
    rw [hs_eq, cell_set_set b _ i _ _ he hil]
    simp [Ne.symm hqi, Ne.symm hqe, hbq]
  rw [calculate_heuristic_eq b q t hlen hcount hq hbq,
    calculate_heuristic_eq s q t hlen_s hcount_s hq hsq]

/-- Claim C16 (heuristic consistency): for a 16-cell board with exactly one
empty cell and exactly one Queen, a target `t` in [0,16) and a successor `s`
of the board, the heuristic values of `s` and of the board differ by at most
one, and they are equal whenever the moved piece (the piece that `s` has on
the cell that was empty) is not the Queen. -/
theorem calculate_heuristic_consistent (b s : Board) (t : Nat) (hlen : b.length = 16)
    (_hblank : b.count ' ' = 1) (hqueen : b.count 'Q' = 1) (_ht : t < 16)
    (hs : s ∈ get_next_states b) :
    |calculate_heuristic s t - calculate_heuristic b t| ≤ 1 ∧
    (cell s (b.indexOf ' ') ≠ 'Q' → calculate_heuristic s t = calculate_heuristic b t) := by
  constructor
  · have h := calculate_heuristic_step b s t hlen hqueen hs
    rw [abs_le]
    constructor <;> omega
  · exact calculate_heuristic_step_eq b s t hlen hqueen hs

/-- Witness for `calculate_heuristic_consistent`: the Queen at cell 1 moves to
the blank at cell 2; towards target 15 the heuristic stays 3. -/
theorem calculate_heuristic_consistent_witness :
    |calculate_heuristic ['K',' ','Q','R','R','R','R','B','B','B','B','N','N','N','N','K'] 15
      - calculate_heuristic
          ['K','Q',' ','R','R','R','R','B','B','B','B','N','N','N','N','K'] 15| ≤ 1 :=
  (calculate_heuristic_consistent
    ['K','Q',' ','R','R','R','R','B','B','B','B','N','N','N','N','K']
    ['K',' ','Q','R','R','R','R','B','B','B','B','N','N','N','N','K'] 15
    (by decide) (by decide) (by decide) (by decide) (by decide)).1

/-! ## Conservation of pieces, termination, reversibility -/

theorem perm_of_mem_legalPath (start : Board) (hlen : start.length = 16) :
    ∀ (path : List Board), LegalPath path → path.head? = some start →
      ∀ x, x ∈ path → x.Perm start := by
  intro path
  induction path generalizing start with
  | nil => intro _ _ x hx; exact absurd hx (List.not_mem_nil _)
  | cons a l ih =>
    intro hlegal hhead x hx
    simp only [List.head?_cons, Option.some.injEq] at hhead
    subst hhead
    rcases List.mem_cons.mp hx with rfl | hx
    · exact List.Perm.refl _
    · cases l with
      | nil => exact absurd hx (List.not_mem_nil _)
      | cons c l' =>
        unfold LegalPath at hlegal
        rw [List.chain'_cons] at hlegal
        have hperm := perm_of_mem_get_next_states hlen hlegal.1
        have hlen_c : c.length = 16 := by rw [hperm.length_eq, hlen]
        exact (ih c hlen_c hlegal.2 rfl x hx).trans hperm

/-- Claim C17 (moves conserve pieces): for a 16-cell board with exactly one
empty cell, every board returned by `get_next_states` is a permutation of the
input (16 cells, the same count of every character) and so has exactly one
empty cell again; and every board of a path returned by
`solve_queens_quadrille` has the piece counts of the start board and exactly
one empty cell. -/
theorem moves_conserve_pieces (b : Board) (hlen : b.length = 16) (hblank : b.count ' ' = 1) :
    (∀ s, s ∈ get_next_states b →
      s.Perm b ∧ s.length = 16 ∧ (∀ c : Char, s.count c = b.count c) ∧ s.count ' ' = 1) ∧
    (∀ (pick : Nat → Nat) (t : Nat) (path : List Board), t < 16 →
      solve_queens_quadrille pick b t = some path →
      ∀ x, x ∈ path →
        x.Perm b ∧ x.length = 16 ∧ (∀ c : Char, x.count c = b.count c) ∧ x.count ' ' = 1) := by
  have key : ∀ x : Board, x.Perm b →
      x.Perm b ∧ x.length = 16 ∧ (∀ c : Char, x.count c = b.count c) ∧ x.count ' ' = 1 := by
    intro x hperm
    exact ⟨hperm, by rw [hperm.length_eq, hlen], fun c => hperm.count_eq c,
      by rw [hperm.count_eq, hblank]⟩
  constructor
  · intro s hs
    exact key s (perm_of_mem_get_next_states hlen hs)
  · intro pick t path _ hp x hx
    rcases solve_result pick b t path hp with ⟨rfl, -⟩ | ⟨n, hn, rfl, -⟩
    · exact absurd hx (List.not_mem_nil _)
    · exact key x (perm_of_mem_legalPath b hlen n.path hn.legal hn.head x hx)

/-- Witness for `moves_conserve_pieces`: the successor of a board with its
blank at cell 2 in which the Queen has moved there has exactly one empty cell. -/
theorem moves_conserve_pieces_witness :
    (['K',' ','Q','R','R','R','R','B','B','B','B','N','N','N','N','K'] : Board).count ' ' = 1 :=
  ((moves_conserve_pieces
    ['K','Q',' ','R','R','R','R','B','B','B','B','N','N','N','N','K']
    (by decide) (by decide)).1
    ['K',' ','Q','R','R','R','R','B','B','B','B','N','N','N','N','K'] (by decide)).2.2.2

/-- Claim C18 (the search terminates): for a 16-cell start board and a target
in [0,16) the main loop of `solve_queens_quadrille` stops after finitely many
iterations, at most `17 * 16! + 2`, whatever the queue does on ties: every
iteration either discards a queued state or adds a new board to the visited
set, and the visited boards are distinct permutations of the 16 cells. -/
theorem search_terminates (start : Board) (target : Nat) (hlen : start.length = 16)
    (_ht : target < 16) :
    search_fuel = 17 * Nat.factorial 16 + 2 ∧
    ∀ (pick : Nat → Nat) (fuel : Nat), search_fuel ≤ fuel →
      ∃ result, search_loop target pick fuel [initial_state start target] [] = some result := by
  refine ⟨search_fuel_eq, ?_⟩
  intro pick fuel hfuel
  have hne : search_loop target pick fuel [initial_state start target] [] ≠ none := by
    apply search_loop_ne_none start target hlen
    · exact List.nodup_nil
    · intro v hv; exact absurd hv (List.not_mem_nil _)
    · intro n hn
      rw [List.mem_singleton] at hn
      subst hn
      exact List.Perm.refl _
    · rw [search_fuel_eq] at hfuel
      simp only [List.length_singleton, List.length_nil, Nat.sub_zero]
      omega
  cases h : search_loop target pick fuel [initial_state start target] [] with
  | none => exact absurd h hne
  | some r => exact ⟨r, rfl⟩

/-- Witness for `search_terminates`: the loop stops on a board with the Queen
next to the blank. -/
theorem search_terminates_witness :
    ∃ result, search_loop 2 (fun _ => 0) search_fuel
      [initial_state ['K','Q',' ','R','R','R','R','B','B','B','B','N','N','N','N','K'] 2] []
      = some result :=
  (search_terminates ['K','Q',' ','R','R','R','R','B','B','B','B','N','N','N','N','K'] 2
    (by decide) (by decide)).2 (fun _ => 0) search_fuel (le_refl _)

theorem is_valid_move_exchange (piece : Char) (r1 c1 r2 c2 : Int) :
    is_valid_move piece r2 c2 r1 c1 = is_valid_move piece r1 c1 r2 c2 := by
  unfold is_valid_move
  rw [abs_sub_comm r2 r1, abs_sub_comm c2 c1]
  have e1 : (r2 == r1) = (r1 == r2) := by
    rw [Bool.eq_iff_iff]; simp only [beq_iff_eq]; exact eq_comm
  have e2 : (c2 == c1) = (c1 == c2) := by
    rw [Bool.eq_iff_iff]; simp only [beq_iff_eq]; exact eq_comm
  rw [e1, e2]

theorem cell_unique (b : Board) (c : Char) (i j : Nat) (hcount : b.count c = 1)
    (hi : i < b.length) (hj : j < b.length) (hci : cell b i = c) (hcj : cell b j = c) :
    i = j := by
  have h1 := cell_eq_some b i hi
  have h2 := cell_eq_some b j hj
  rw [hci] at h1
  rw [hcj] at h2
  rcases Nat.lt_trichotomy i j with h | h | h
  · have := two_le_count_of_index c b i j h h1 h2
    omega
  · exact h
  · have := two_le_count_of_index c b j i h h2 h1
    omega

/-- Claim C19 (every move is reversible): for a 16-cell board `b` with exactly
one empty cell and every `s` in `get_next_states(b)`, the board `b` is an
element of `get_next_states(s)`. -/
theorem moves_reversible (b s : Board) (hlen : b.length = 16) (hblank : b.count ' ' = 1)
    (hs : s ∈ get_next_states b) : b ∈ get_next_states s := by
  have hperm := perm_of_mem_get_next_states hlen hs
  have hlen_s : s.length = 16 := by rw [hperm.length_eq, hlen]
  rw [mem_get_next_states] at hs
  obtain ⟨he, i, hi, hm, hs_eq⟩ := hs
  have hce := cell_indexOf_blank b he
  obtain ⟨hne, hie⟩ := movable_ne b _ _ hce hm
  have hil : i < b.length := by omega
  have hcell : ∀ j, cell s j =
      if i = j then ' ' else if b.indexOf ' ' = j then cell b i else cell b j := by
    intro j
    rw [hs_eq, cell_set_set b _ i j _ he hil]
  have hidx : s.indexOf ' ' = i := by
    apply indexOf_blank_eq s i (by omega)
    · rw [hcell]; simp
    · intro j hj
      rw [hcell]
      have hij : ¬ i = j := by omega
      simp only [hij, if_false]
      split
      · exact hne
      · rename_i hej
        intro hbj
        exact hej (cell_unique b ' ' _ j hblank he (by omega) hce hbj)
  have hse : cell s (b.indexOf ' ') = cell b i := by
    rw [hcell]; simp [hie]
  rw [mem_get_next_states, hidx]
  refine ⟨by omega, b.indexOf ' ', by omega, ?_, ?_⟩
  · unfold movable at hm ⊢
    rw [hse, is_valid_move_exchange]
    exact hm
  · apply List.ext_getElem
    · simp [hlen, hlen_s]
    · intro j h1 h2
      rw [← cell_eq_getElem b j h1, ← cell_eq_getElem _ j h2,
        cell_set_set s i _ j _ (by omega) (by omega), hse]
      by_cases hej : b.indexOf ' ' = j
      · subst hej; simp [hce]
      · by_cases hij : i = j
        · subst hij; simp [hej]
        · simp only [hej, hij, if_false]
          rw [hcell]
          simp [hej, hij]

/-- Witness for `moves_reversible`: the Queen moved from cell 1 to cell 2 can
move back. -/
theorem moves_reversible_witness :
    (['K','Q',' ','R','R','R','R','B','B','B','B','N','N','N','N','K'] : Board) ∈
      get_next_states ['K',' ','Q','R','R','R','R','B','B','B','B','N','N','N','N','K'] :=
  moves_reversible ['K','Q',' ','R','R','R','R','B','B','B','B','N','N','N','N','K']
    ['K',' ','Q','R','R','R','R','B','B','B','B','N','N','N','N','K']
    (by decide) (by decide) (by decide)

/-! ## The adjacency rule and chess movement -/

set_option maxRecDepth 100000 in
theorem is_valid_move_eq_chess_move_one_blank :
    ∀ i, i < 16 → ∀ e, e < 16 → ∀ p, p ∈ ['K', 'Q', 'R', 'B', 'N'] →
      is_valid_move p ((i / 4 : Nat) : Int) ((i % 4 : Nat) : Int)
          ((e / 4 : Nat) : Int) ((e % 4 : Nat) : Int) =
        chess_move (fun j => j == e) p ((i / 4 : Nat) : Int) ((i % 4 : Nat) : Int)
          ((e / 4 : Nat) : Int) ((e % 4 : Nat) : Int) := by
  decide

theorem is_empty_eq_of_one_blank (b : Board) (e : Nat) (hblank : b.count ' ' = 1)
    (he : e < b.length) (hbe : cell b e = ' ') :
    (fun j => cell b j == ' ') = (fun j => j == e) := by
  funext j
  rw [Bool.eq_iff_iff]
  simp only [beq_iff_eq]
  constructor
  · intro hj
    by_cases hjl : j < b.length
    · exact cell_unique b ' ' j e hblank hjl he hj hbe
    · exfalso
      unfold cell at hj
      rw [List.getD_eq_default _ _ (Nat.le_of_not_lt hjl)] at hj
      revert hj
      decide
  · rintro rfl
    exact hbe

/-- Claim C15 (the adjacency rule is chess movement on single-blank boards):
for a 16-cell board with exactly one empty cell `e` and a cell `i` holding K,
Q, R, B or N, `is_valid_move(board[i], i, e)` is true if and only if that piece
can move from `i` to `e` under standard chess movement with no jumping over
occupied cells (`chess_move` on the board's empty cells). -/
theorem adjacency_rule_is_chess_movement (b : Board) (e i : Nat) (hlen : b.length = 16)
    (hblank : b.count ' ' = 1) (he : e < 16) (hi : i < 16) (hbe : cell b e = ' ')
    (hp : cell b i ∈ ['K', 'Q', 'R', 'B', 'N']) :
    is_valid_move (cell b i) ((i / 4 : Nat) : Int) ((i % 4 : Nat) : Int)
        ((e / 4 : Nat) : Int) ((e % 4 : Nat) : Int) = true ↔
      chess_move (fun j => cell b j == ' ') (cell b i) ((i / 4 : Nat) : Int)
        ((i % 4 : Nat) : Int) ((e / 4 : Nat) : Int) ((e % 4 : Nat) : Int) = true := by
  rw [is_empty_eq_of_one_blank b e hblank (by omega) hbe,
    is_valid_move_eq_chess_move_one_blank i hi e he (cell b i) hp]

/-- Witness for `adjacency_rule_is_chess_movement`: the Rook at cell 3 stands
next to the blank at cell 2 and can move there. -/
theorem adjacency_rule_is_chess_movement_witness :
    chess_move
      (fun j => cell ['K','Q',' ','R','R','R','R','B','B','B','B','N','N','N','N','K'] j == ' ')
      'R' ((3 / 4 : Nat) : Int) ((3 % 4 : Nat) : Int) ((2 / 4 : Nat) : Int)
      ((2 % 4 : Nat) : Int) = true :=
  (adjacency_rule_is_chess_movement
    ['K','Q',' ','R','R','R','R','B','B','B','B','N','N','N','N','K'] 2 3
    (by decide) (by decide) (by decide) (by decide) (by decide) (by decide)).mp (by decide)

/-! ## The tour: target selection -/

set_option maxRecDepth 100000 in
theorem chebyshev_distance_cells :
    ∀ q : Nat, q < 16 → ∀ t : Nat, t < 16 →
      chebyshev_distance (q : Int) (t : Int) ≤ 3 ∧
      (chebyshev_distance (q : Int) (t : Int) = 0 ↔ t = q) := by
  decide

theorem getElem?_append_length (pre rest : List Nat) (t : Nat) :
    (pre ++ t :: rest)[pre.length]? = some t := by
  rw [List.getElem?_append_right (Nat.le_refl _), Nat.sub_self]
  exact List.getElem?_cons_zero

theorem scanInv_snoc_less (q : Nat) (pre : List Nat) (t : Nat)
    (best min_dist : Int) (ht : t < 16) (htq : t ≠ q) (hinv : ScanInv q pre best min_dist)
    (hd : chebyshev_distance (q : Int) (t : Int) < min_dist) :
    ScanInv q (pre ++ [t]) (pre.length : Int) (chebyshev_distance (q : Int) (t : Int)) := by
  obtain ⟨hpre, hnil, hsel⟩ := hinv
  have hold : ∀ x, x ∈ pre →
      chebyshev_distance (q : Int) (t : Int) < chebyshev_distance (q : Int) (x : Int) := by
    intro x hx
    have hne : pre ≠ [] := List.ne_nil_of_mem hx
    obtain ⟨sel, -, -, hmd, hmin, -⟩ := hsel hne
    have := hmin x hx
    omega
  refine ⟨?_, ?_, ?_⟩
  · intro x hx
    rcases List.mem_append.mp hx with hx | hx
    · exact hpre x hx
    · rw [List.mem_singleton] at hx
      subst hx
      exact ⟨ht, htq⟩
  · intro h
    exact absurd h (by simp)
  · intro _
    refine ⟨t, by simp, ?_, rfl, ?_, ?_⟩
    · simp only [Int.toNat_ofNat]
      exact getElem?_append_length pre [] t
    · intro x hx
      rcases List.mem_append.mp hx with hx | hx
      · exact le_of_lt (hold x hx)
      · rw [List.mem_singleton] at hx
        subst hx
        exact le_refl _
    · intro x hx
      simp only [Int.toNat_ofNat, List.take_left] at hx
      exact hold x hx

theorem scanInv_snoc_keep (q : Nat) (hq : q < 16) (pre : List Nat) (t : Nat)
    (best min_dist : Int) (ht : t < 16) (htq : t ≠ q) (hinv : ScanInv q pre best min_dist)
    (hd : ¬ chebyshev_distance (q : Int) (t : Int) < min_dist) :
    ScanInv q (pre ++ [t]) best min_dist := by
  obtain ⟨hpre, hnil, hsel⟩ := hinv
  have hne : pre ≠ [] := by
    intro h
    obtain ⟨-, hmd⟩ := hnil h
    have := (chebyshev_distance_cells q hq t ht).1
    omega
  obtain ⟨sel, h0, hget, hmd, hmin, hfirst⟩ := hsel hne
  have hlt : best.toNat < pre.length := by
    obtain ⟨h, -⟩ := List.getElem?_eq_some.mp hget
    exact h
  refine ⟨?_, ?_, ?_⟩
  · intro x hx
    rcases List.mem_append.mp hx with hx | hx
    · exact hpre x hx
    · rw [List.mem_singleton] at hx
      subst hx
      exact ⟨ht, htq⟩
  · intro h
    exact absurd h (by simp)
  · intro _
    refine ⟨sel, h0, ?_, hmd, ?_, ?_⟩
    · rw [List.getElem?_append_left hlt]
      exact hget
    · intro x hx
      rcases List.mem_append.mp hx with hx | hx
      · exact hmin x hx
      · rw [List.mem_singleton] at hx
        subst hx
        omega
    · intro x hx
      rw [List.take_append_of_le_length (Nat.le_of_lt hlt)] at hx
      exact hfirst x hx

theorem nearest_loop_spec (q : Nat) (hq : q < 16) :
    ∀ (rest pre : List Nat) (best min_dist : Int),
      (∀ t, t ∈ rest → t < 16) → ScanInv q pre best min_dist → pre ++ rest ≠ [] →
      ∃ sel, 0 ≤ (nearest_loop q rest pre.length best min_dist).1 ∧
        FirstNearest q (pre ++ rest)
          (nearest_loop q rest pre.length best min_dist).1.toNat sel ∧
        (q ∈ pre ++ rest → sel = q) := by
  intro rest
  induction rest with
  | nil =>
    intro pre best min_dist _ hinv hne
    rw [List.append_nil] at hne ⊢
    obtain ⟨hnq, -, hsel⟩ := hinv
    obtain ⟨sel, h0, hget, -, hmin, hfirst⟩ := hsel hne
    exact ⟨sel, h0, ⟨hget, hmin, hfirst⟩, fun hmem => absurd rfl (hnq q hmem).2⟩
  | cons t rest ih =>
    intro pre best min_dist hall hinv _
    have ht : t < 16 := hall t (List.mem_cons_self _ _)
    have hrest : ∀ x, x ∈ rest → x < 16 := fun x hx => hall x (List.mem_cons_of_mem _ hx)
    have happ : pre ++ t :: rest = (pre ++ [t]) ++ rest := by simp
    have hlen1 : pre.length + 1 = (pre ++ [t]).length := by simp
    unfold nearest_loop
    by_cases htq : t = q
    · rw [if_pos htq]
      subst htq
      refine ⟨t, by simp, ⟨?_, ?_, ?_⟩, fun _ => rfl⟩
      · simp only [Int.toNat_ofNat]
        exact getElem?_append_length pre rest t
      · intro x _
        rw [chebyshev_distance_self]
        exact chebyshev_distance_nonneg _ _
      · intro x hx
        simp only [Int.toNat_ofNat, List.take_left] at hx
        obtain ⟨hx16, hxne⟩ := hinv.1 x hx
        rw [chebyshev_distance_self]
        have h := chebyshev_distance_cells t hq x hx16
        have h0 := chebyshev_distance_nonneg (t : Int) (x : Int)
        have : chebyshev_distance (t : Int) (x : Int) ≠ 0 := fun h0 => hxne (h.2.mp h0)
        omega
    · rw [if_neg htq]
      simp only
      by_cases hd : chebyshev_distance (q : Int) (t : Int) < min_dist
      · rw [if_pos hd, happ, hlen1]
        exact ih _ _ _ hrest (scanInv_snoc_less q pre t best min_dist ht htq hinv hd)
          (by simp)
      · rw [if_neg hd, happ, hlen1]
        exact ih _ _ _ hrest (scanInv_snoc_keep q hq pre t best min_dist ht htq hinv hd)
          (by simp)

theorem nearest_target_spec (q : Nat) (remaining : List Nat) (hq : q < 16)
    (hne : remaining ≠ []) (hall : ∀ t, t ∈ remaining → t < 16) :
    ∃ sel, 0 ≤ (nearest_target q remaining).1 ∧
      FirstNearest q remaining (nearest_target q remaining).1.toNat sel ∧
      (q ∈ remaining → sel = q) := by
  have h := nearest_loop_spec q hq remaining [] (-1) 9999 hall
    ⟨fun t ht => absurd ht (List.not_mem_nil _), fun _ => ⟨rfl, rfl⟩, fun h => absurd rfl h⟩
    (by simpa using hne)
  simpa [nearest_target] using h

/-- Claim C11 (tour target selection): for a non-empty remaining-targets list
with all entries in [0,16) and the Queen at cell `q`, the scan selects a valid
list index; the selected entry has the least `chebyshev_distance(q, target)`
of the list and every entry at a smaller index is strictly farther, so it is
the first of the nearest targets; and a target equal to `q` is the selected
one whenever the list contains one. -/
theorem nearest_target_is_first_nearest (q : Nat) (remaining : List Nat) (hq : q < 16)
    (hne : remaining ≠ []) (hall : ∀ t, t ∈ remaining → t < 16) :
    ∃ (idx sel : Nat), (nearest_target q remaining).1 = (idx : Int) ∧
      remaining[idx]? = some sel ∧
      (∀ t, t ∈ remaining →
        chebyshev_distance (q : Int) (sel : Int) ≤ chebyshev_distance (q : Int) (t : Int)) ∧
      (∀ j t, j < idx → remaining[j]? = some t →
        chebyshev_distance (q : Int) (sel : Int) < chebyshev_distance (q : Int) (t : Int)) ∧
      (q ∈ remaining → sel = q) := by
  obtain ⟨sel, h0, ⟨hget, hmin, hfirst⟩, hq_sel⟩ := nearest_target_spec q remaining hq hne hall
  refine ⟨(nearest_target q remaining).1.toNat, sel, (Int.toNat_of_nonneg h0).symm, hget,
    hmin, ?_, hq_sel⟩
  intro j t hj hjt
  apply hfirst
  rw [List.mem_take_iff_getElem]
  obtain ⟨hjl, hjt'⟩ := List.getElem?_eq_some.mp hjt
  exact ⟨j, by omega, hjt'⟩

/-- Witness for `nearest_target_is_first_nearest`: with the Queen at cell 5 and
the targets 0, 15, 10, 2 the scan selects position 0 (cells 0, 10 and 2 are
all at distance 1). -/
theorem nearest_target_is_first_nearest_witness :
    (nearest_target 5 [0, 15, 10, 2]).1 = 0 ∧
    ∃ (idx sel : Nat), (nearest_target 5 [0, 15, 10, 2]).1 = (idx : Int) ∧
      ([0, 15, 10, 2] : List Nat)[idx]? = some sel ∧
      (∀ t : Nat, t ∈ [0, 15, 10, 2] →
        chebyshev_distance ((5 : Nat) : Int) (sel : Int)
          ≤ chebyshev_distance ((5 : Nat) : Int) (t : Int)) ∧
      (∀ (j t : Nat), j < idx → ([0, 15, 10, 2] : List Nat)[j]? = some t →
        chebyshev_distance ((5 : Nat) : Int) (sel : Int)
          < chebyshev_distance ((5 : Nat) : Int) (t : Int)) ∧
      ((5 : Nat) ∈ [0, 15, 10, 2] → sel = 5) :=
  ⟨by decide, nearest_target_is_first_nearest 5 [0, 15, 10, 2] (by decide) (by decide)
    (by decide)⟩

/-! ## The tour loop -/

theorem tour_iteration_next {pick : Board → Nat → Nat → Nat} {s s' : TourState}
    (h : tour_iteration pick s = IterationResult.next s') :
    ∃ q, find_queen s.current_board = some q ∧
      s'.remaining_targets =
        s.remaining_targets.eraseIdx (nearest_target q s.remaining_targets).1.toNat ∧
      ((s.remaining_targets.getD (nearest_target q s.remaining_targets).1.toNat 0 = q ∧
          s'.full_path = s.full_path ∧ s'.current_board = s.current_board ∧
          s'.tour_step = s.tour_step) ∨
        (s.remaining_targets.getD (nearest_target q s.remaining_targets).1.toNat 0 ≠ q ∧
          ∃ first more,
            solve_queens_quadrille
              (pick s.current_board
                (s.remaining_targets.getD (nearest_target q s.remaining_targets).1.toNat 0))
              s.current_board
              (s.remaining_targets.getD (nearest_target q s.remaining_targets).1.toNat 0)
              = some (first :: more) ∧
            s'.full_path = s.full_path ++ more ∧
            s'.current_board = (first :: more).getLast (List.cons_ne_nil first more) ∧
            s'.tour_step = s.tour_step + 1)) := by
  unfold tour_iteration at h
  cases hq : find_queen s.current_board with
  | none =>
    rw [hq] at h
    exact IterationResult.noConfusion h
  | some q =>
    rw [hq] at h
    simp only at h
    refine ⟨q, rfl, ?_⟩
    split at h
    · rename_i htq
      simp only [IterationResult.next.injEq] at h
      subst h
      exact ⟨rfl, Or.inl ⟨htq, rfl, rfl, rfl⟩⟩
    · rename_i htq
      split at h
      · exact IterationResult.noConfusion h
      · exact IterationResult.noConfusion h
      · rename_i first more hsolve
        simp only [IterationResult.next.injEq] at h
        subst h
        exact ⟨rfl, Or.inr ⟨htq, first, more, hsolve, rfl, rfl, rfl⟩⟩

theorem tour_after_induct (pick : Board → Nat → Nat → Nat) (P : TourState → Prop)
    (hstep : ∀ s s', P s → s.remaining_targets ≠ [] →
      tour_iteration pick s = IterationResult.next s' → P s') :
    ∀ (k : Nat) (s0 s : TourState), P s0 → tour_after pick k s0 = some s → P s := by
  intro k
  induction k with
  | zero =>
    intro s0 s h0 h
    simp only [tour_after, Option.some.injEq] at h
    exact h ▸ h0
  | succ k ih =>
    intro s0 s h0 h
    unfold tour_after at h
    split at h
    · exact Option.noConfusion h
    · rename_i hne
      split at h
      · rename_i s1 hit
        exact ih s1 s (hstep s0 s1 h0 hne hit) h
      · exact Option.noConfusion h

theorem cell_find_queen {b : Board} {q : Nat} (h : find_queen b = some q) :
    q < 16 ∧ cell b q = 'Q' := by
  unfold find_queen at h
  rw [List.find?_range_eq_some] at h
  exact ⟨List.mem_range.mp h.2.1, by simpa using h.1⟩

theorem find_queen_isSome {b : Board} {t : Nat} (ht : t < 16) (hq : cell b t = 'Q') :
    ∃ q, find_queen b = some q := by
  cases h : find_queen b with
  | some q => exact ⟨q, rfl⟩
  | none =>
    exfalso
    unfold find_queen at h
    rw [List.find?_eq_none] at h
    exact h t (List.mem_range.mpr ht) (by simp [hq])

/-! ## The tour: path invariant, Queen never lost, targets visited -/

theorem solve_path_facts {pick : Nat → Nat} {b : Board} {t : Nat} {first : Board}
    {more : List Board} (h : solve_queens_quadrille pick b t = some (first :: more)) :
    first = b ∧ List.Chain' (fun x y => y ∈ get_next_states x) (first :: more) ∧
      cell ((first :: more).getLast (List.cons_ne_nil first more)) t = 'Q' := by
  rcases solve_result pick b t _ h with ⟨hnil, -⟩ | ⟨n, hn, hpath, hg⟩
  · exact absurd hnil (List.cons_ne_nil _ _)
  · have hhead := hn.head
    have hlast := hn.last
    have hlegal := hn.legal
    rw [hpath] at hhead hlast hlegal
    simp only [List.head?_cons, Option.some.injEq] at hhead
    rw [List.getLast?_eq_getLast _ (List.cons_ne_nil first more), Option.some.injEq] at hlast
    refine ⟨hhead, hlegal, ?_⟩
    rw [hlast]
    simpa [is_goal_state] using hg

theorem getLast?_append_tail (fp : List Board) (first : Board) (more : List Board)
    (h : fp.getLast? = some first) :
    (fp ++ more).getLast? = some ((first :: more).getLast (List.cons_ne_nil first more)) := by
  cases more with
  | nil => simpa using h
  | cons m ms =>
    rw [List.getLast?_append_of_ne_nil _ (List.cons_ne_nil m ms),
      List.getLast?_eq_getLast _ (List.cons_ne_nil m ms)]
    simp [List.getLast_cons]

theorem chain_append_tail (fp : List Board) (first : Board) (more : List Board)
    (hfp : List.Chain' (fun x y => y ∈ get_next_states x) fp)
    (hlast : fp.getLast? = some first)
    (hleg : List.Chain' (fun x y => y ∈ get_next_states x) (first :: more)) :
    List.Chain' (fun x y => y ∈ get_next_states x) (fp ++ more) := by
  cases more with
  | nil => simpa using hfp
  | cons m ms =>
    rw [List.chain'_cons] at hleg
    apply List.Chain'.append hfp hleg.2
    intro x hx y hy
    rw [hlast] at hx
    simp only [Option.mem_def, Option.some.injEq] at hx
    simp only [List.head?_cons, Option.mem_def, Option.some.injEq] at hy
    subst hx; subst hy
    exact hleg.1

/-- Claim C13 (tour concatenation invariant): for a 16-cell start board and a
target list with entries in [0,16), after every iteration of the tour loop the
accumulated full path starts with the start board, ends with the current
board, and each consecutive pair of its boards is one legal move (the later is
an element of `get_next_states` of the earlier), so no boundary board of a leg
occurs twice in a row. -/
theorem tour_path_invariant (pick : Board → Nat → Nat → Nat) (start : Board)
    (targets : List Nat) (_hlen : start.length = 16) (_hall : ∀ t, t ∈ targets → t < 16) :
    ∀ (k : Nat) (s : TourState),
      tour_after pick k (initial_tour_state start targets) = some s →
      s.full_path.head? = some start ∧
      s.full_path.getLast? = some s.current_board ∧
      List.Chain' (fun a b => b ∈ get_next_states a) s.full_path := by
  intro k s hs
  refine tour_after_induct pick
    (fun s => s.full_path.head? = some start ∧ s.full_path.getLast? = some s.current_board ∧
      List.Chain' (fun a b => b ∈ get_next_states a) s.full_path)
    ?_ k (initial_tour_state start targets) s ⟨rfl, rfl, List.chain'_singleton _⟩ hs
  intro s1 s2 ⟨hhead, hlast, hchain⟩ _ hit
  obtain ⟨q, -, -, hcase⟩ := tour_iteration_next hit
  rcases hcase with ⟨-, hfp, hcb, -⟩ | ⟨-, first, more, hsolve, hfp, hcb, -⟩
  · rw [hfp, hcb]
    exact ⟨hhead, hlast, hchain⟩
  · obtain ⟨hfirst, hleg, -⟩ := solve_path_facts hsolve
    have hlast' : s1.full_path.getLast? = some first := by rw [hlast, hfirst]
    have hne : s1.full_path ≠ [] := by
      intro h
      rw [h] at hhead
      exact Option.noConfusion hhead
    rw [hfp, hcb]
    refine ⟨?_, getLast?_append_tail _ _ _ hlast', chain_append_tail _ _ _ hchain hlast' hleg⟩
    rw [List.head?_append_of_ne_nil _ hne]
    exact hhead

/-- Witness for `tour_path_invariant`: after two iterations on the targets 2, 1
(the Queen starts on cell 1) the full path has two boards. -/
theorem tour_path_invariant_witness :
    ∃ s, tour_after (fun _ _ _ => 0) 2
        (initial_tour_state
          ['K','Q',' ','R','R','R','R','B','B','B','B','N','N','N','N','K'] [2, 1]) = some s ∧
      s.full_path.length = 2 ∧
      s.full_path.head? = some ['K','Q',' ','R','R','R','R','B','B','B','B','N','N','N','N','K'] ∧
      s.full_path.getLast? = some s.current_board ∧
      List.Chain' (fun a b => b ∈ get_next_states a) s.full_path :=
  ⟨{ full_path := [['K','Q',' ','R','R','R','R','B','B','B','B','N','N','N','N','K'],
        ['K',' ','Q','R','R','R','R','B','B','B','B','N','N','N','N','K']]
     current_board := ['K',' ','Q','R','R','R','R','B','B','B','B','N','N','N','N','K']
     remaining_targets := []
     tour_step := 2 },
   by decide, by decide,
   tour_path_invariant (fun _ _ _ => 0) _ [2, 1] (by decide) (by decide) 2 _ (by decide)⟩

theorem mem_eraseIdx_subset {l : List Nat} {i t : Nat} (h : t ∈ l.eraseIdx i) : t ∈ l := by
  obtain ⟨j, hj, -, rfl⟩ := List.mem_eraseIdx_iff_getElem.mp h
  exact List.getElem_mem hj

theorem mem_getD_or_eraseIdx {l : List Nat} {t : Nat} (i : Nat) (h : t ∈ l) :
    t = l.getD i 0 ∨ t ∈ l.eraseIdx i := by
  obtain ⟨j, hj, rfl⟩ := List.getElem_of_mem h
  by_cases hji : j = i
  · subst hji
    left
    rw [List.getD_eq_getElem l 0 hj]
  · right
    exact List.mem_eraseIdx_iff_getElem.mpr ⟨j, hj, hji, rfl⟩

theorem getD_lt_of_all_lt {l : List Nat} (i : Nat) (hall : ∀ t, t ∈ l → t < 16) :
    l.getD i 0 < 16 := by
  by_cases hi : i < l.length
  · rw [List.getD_eq_getElem l 0 hi]
    exact hall _ (List.getElem_mem hi)
  · rw [List.getD_eq_default l 0 (Nat.le_of_not_lt hi)]
    decide

theorem mem_of_cell_queen {b : Board} {q : Nat} (h : cell b q = 'Q') : 'Q' ∈ b := by
  by_cases hq : q < b.length
  · rw [cell_eq_getElem b q hq] at h
    exact h ▸ List.getElem_mem hq
  · exfalso
    unfold cell at h
    rw [List.getD_eq_default _ _ (Nat.le_of_not_lt hq)] at h
    revert h
    decide

theorem exists_cell_queen_of_mem {b : Board} (hlen : b.length = 16) (h : 'Q' ∈ b) :
    ∃ q, q < 16 ∧ cell b q = 'Q' := by
  obtain ⟨q, hq, hbq⟩ := List.getElem_of_mem h
  exact ⟨q, by omega, by rw [cell_eq_getElem b q hq, hbq]⟩

theorem tour_iteration_ne_queen_lost {pick : Board → Nat → Nat → Nat} {s : TourState}
    {q : Nat} (hq : find_queen s.current_board = some q) :
    tour_iteration pick s ≠ IterationResult.queen_lost := by
  unfold tour_iteration
  rw [hq]
  simp only
  split
  · intro h; exact IterationResult.noConfusion h
  · split <;> (intro h; exact IterationResult.noConfusion h)

/-- The tour loop keeps a Queen on the board and the targets inside the board. -/
theorem tour_queen_step (pick : Board → Nat → Nat → Nat) (s s' : TourState)
    (hP : (∃ q, q < 16 ∧ cell s.current_board q = 'Q') ∧
      ∀ t, t ∈ s.remaining_targets → t < 16)
    (hit : tour_iteration pick s = IterationResult.next s') :
    (∃ q, q < 16 ∧ cell s'.current_board q = 'Q') ∧
      ∀ t, t ∈ s'.remaining_targets → t < 16 := by
  obtain ⟨hqueen, hall⟩ := hP
  obtain ⟨q, -, hrem, hcase⟩ := tour_iteration_next hit
  have hall' : ∀ t, t ∈ s'.remaining_targets → t < 16 := by
    intro t ht
    rw [hrem] at ht
    exact hall t (mem_eraseIdx_subset ht)
  refine ⟨?_, hall'⟩
  rcases hcase with ⟨-, -, hcb, -⟩ | ⟨-, first, more, hsolve, -, hcb, -⟩
  · rw [hcb]; exact hqueen
  · obtain ⟨-, -, hgoal⟩ := solve_path_facts hsolve
    rw [hcb]
    exact ⟨_, getD_lt_of_all_lt _ hall, hgoal⟩

theorem tour_loop_ne_queen_lost (pick : Board → Nat → Nat → Nat) :
    ∀ (fuel : Nat) (s : TourState),
      ((∃ q, q < 16 ∧ cell s.current_board q = 'Q') ∧
        ∀ t, t ∈ s.remaining_targets → t < 16) →
      tour_loop pick fuel s ≠ TourResult.queen_lost := by
  intro fuel
  induction fuel with
  | zero =>
    intro s _
    unfold tour_loop
    split <;> (intro h; exact TourResult.noConfusion h)
  | succ fuel ih =>
    intro s hP
    unfold tour_loop
    split
    · intro h; exact TourResult.noConfusion h
    · obtain ⟨q, hq, hbq⟩ := hP.1
      obtain ⟨q', hq'⟩ := find_queen_isSome hq hbq
      have hne : tour_iteration pick s ≠ IterationResult.queen_lost :=
        tour_iteration_ne_queen_lost hq'
      split
      · rename_i s' hit
        exact ih s' (tour_queen_step pick s s' hP hit)
      · rename_i hit
        exact absurd hit hne
      · intro h; exact TourResult.noConfusion h
      · intro h; exact TourResult.noConfusion h

/-- Claim C20 (the "Queen lost" branch is unreachable): for a 16-cell start
board containing a 'Q' and a target list with entries in [0,16), in every
iteration of the tour loop the current board contains a 'Q', the scan for the
Queen's position finds one (it never yields -1), the iteration does not take
the Queen-absent exit, and the tour never ends with that error. -/
theorem queen_never_lost (pick : Board → Nat → Nat → Nat) (start : Board)
    (targets : List Nat) (hlen : start.length = 16) (hq : 'Q' ∈ start)
    (hall : ∀ t, t ∈ targets → t < 16) :
    (∀ (k : Nat) (s : TourState),
      tour_after pick k (initial_tour_state start targets) = some s →
      'Q' ∈ s.current_board ∧ (∃ q, find_queen s.current_board = some q) ∧
      tour_iteration pick s ≠ IterationResult.queen_lost) ∧
    tour pick start targets ≠ TourResult.queen_lost := by
  have hinit : (∃ q, q < 16 ∧ cell (initial_tour_state start targets).current_board q = 'Q') ∧
      ∀ t, t ∈ (initial_tour_state start targets).remaining_targets → t < 16 :=
    ⟨exists_cell_queen_of_mem hlen hq, hall⟩
  constructor
  · intro k s hs
    have hP := tour_after_induct pick
      (fun s => (∃ q, q < 16 ∧ cell s.current_board q = 'Q') ∧
        ∀ t, t ∈ s.remaining_targets → t < 16)
      (fun s1 s2 h1 _ hit => tour_queen_step pick s1 s2 h1 hit)
      k (initial_tour_state start targets) s hinit hs
    obtain ⟨q, hq16, hbq⟩ := hP.1
    obtain ⟨q', hq'⟩ := find_queen_isSome hq16 hbq
    exact ⟨mem_of_cell_queen hbq, ⟨q', hq'⟩, tour_iteration_ne_queen_lost hq'⟩
  · exact tour_loop_ne_queen_lost pick _ _ hinit

/-- Witness for `queen_never_lost`: the tour on the targets 2, 1 from a board
with the Queen on cell 1. -/
theorem queen_never_lost_witness :
    tour (fun _ _ _ => 0)
      ['K','Q',' ','R','R','R','R','B','B','B','B','N','N','N','N','K'] [2, 1]
      ≠ TourResult.queen_lost :=
  (queen_never_lost (fun _ _ _ => 0)
    ['K','Q',' ','R','R','R','R','B','B','B','B','N','N','N','N','K'] [2, 1]
    (by decide) (by decide) (by decide)).2

/-- From a loop state whose full path ends with the current board, a completed
tour returns a path that extends the full path and shows the Queen on every
remaining target. -/
theorem tour_loop_completed (pick : Board → Nat → Nat → Nat) :
    ∀ (fuel : Nat) (s : TourState) (fp : List Board) (n : Nat),
      s.full_path.getLast? = some s.current_board →
      tour_loop pick fuel s = TourResult.completed fp n →
      (∀ b, b ∈ s.full_path → b ∈ fp) ∧
      ∀ t, t ∈ s.remaining_targets → ∃ b, b ∈ fp ∧ cell b t = 'Q' := by
  intro fuel
  induction fuel with
  | zero =>
    intro s fp n _ h
    unfold tour_loop at h
    split at h
    · rename_i hnil
      simp only [TourResult.completed.injEq] at h
      rw [hnil]
      exact ⟨fun b hb => h.1 ▸ hb, fun t ht => absurd ht (List.not_mem_nil _)⟩
    · exact TourResult.noConfusion h
  | succ fuel ih =>
    intro s fp n hlast h
    unfold tour_loop at h
    split at h
    · rename_i hnil
      simp only [TourResult.completed.injEq] at h
      rw [hnil]
      exact ⟨fun b hb => h.1 ▸ hb, fun t ht => absurd ht (List.not_mem_nil _)⟩
    · split at h
      · rename_i s' hit
        obtain ⟨q, hfq, hrem, hcase⟩ := tour_iteration_next hit
        have hcur : s.current_board ∈ s.full_path := List.mem_of_mem_getLast? hlast
        rcases hcase with ⟨htq, hfp, hcb, -⟩ | ⟨-, first, more, hsolve, hfp, hcb, -⟩
        · have hlast' : s'.full_path.getLast? = some s'.current_board := by
            rw [hfp, hcb]; exact hlast
          obtain ⟨hsub, hvis⟩ := ih s' fp n hlast' h
          rw [hfp] at hsub
          refine ⟨hsub, ?_⟩
          intro t ht
          rcases mem_getD_or_eraseIdx (nearest_target q s.remaining_targets).1.toNat ht
            with heq | hmem
          · refine ⟨s.current_board, hsub _ hcur, ?_⟩
            rw [heq, htq]
            exact (cell_find_queen hfq).2
          · exact hvis t (hrem ▸ hmem)
        · obtain ⟨hfirst, -, hgoal⟩ := solve_path_facts hsolve
          have hlast1 : s.full_path.getLast? = some first := by rw [hlast, hfirst]
          have hlast' : s'.full_path.getLast? = some s'.current_board := by
            rw [hfp, hcb]
            exact getLast?_append_tail _ _ _ hlast1
          obtain ⟨hsub, hvis⟩ := ih s' fp n hlast' h
          refine ⟨?_, ?_⟩
          · intro b hb
            exact hsub b (hfp ▸ List.mem_append_left _ hb)
          · intro t ht
            rcases mem_getD_or_eraseIdx (nearest_target q s.remaining_targets).1.toNat ht
              with heq | hmem
            · refine ⟨s'.current_board, hsub _ (List.mem_of_mem_getLast? hlast'), ?_⟩
              rw [heq, hcb]
              exact hgoal
            · exact hvis t (hrem ▸ hmem)
      · exact TourResult.noConfusion h
      · exact TourResult.noConfusion h
      · exact TourResult.noConfusion h

/-- Claim C12 (a completed tour visits every target): for a 16-cell start board
with exactly one empty cell and a Queen and a non-empty target list with
entries in [0,16), if the tour loop finishes without a failed leg then for
each target of the list some board of the accumulated full path has 'Q' at
that target cell. -/
theorem completed_tour_visits_targets (pick : Board → Nat → Nat → Nat) (start : Board)
    (targets : List Nat) (full_path : List Board) (n : Nat)
    (_hlen : start.length = 16) (_hblank : start.count ' ' = 1) (_hq : 'Q' ∈ start)
    (_hne : targets ≠ []) (_hall : ∀ t, t ∈ targets → t < 16)
    (h : tour pick start targets = TourResult.completed full_path n) :
    ∀ t, t ∈ targets → ∃ b, b ∈ full_path ∧ cell b t = 'Q' :=
  (tour_loop_completed pick targets.length (initial_tour_state start targets) full_path n
    rfl h).2

/-- Witness for `completed_tour_visits_targets`: the tour on the targets 2, 1
from a board with the Queen on cell 1 completes with a path of two boards,
one with the Queen on cell 2 and one with the Queen on cell 1. -/
theorem completed_tour_visits_targets_witness :
    (∃ b, b ∈ [['K','Q',' ','R','R','R','R','B','B','B','B','N','N','N','N','K'],
          ['K',' ','Q','R','R','R','R','B','B','B','B','N','N','N','N','K']] ∧
        cell b 2 = 'Q') ∧
    (∃ b, b ∈ [['K','Q',' ','R','R','R','R','B','B','B','B','N','N','N','N','K'],
          ['K',' ','Q','R','R','R','R','B','B','B','B','N','N','N','N','K']] ∧
        cell b 1 = 'Q') :=
  ⟨completed_tour_visits_targets (fun _ _ _ => 0)
      ['K','Q',' ','R','R','R','R','B','B','B','B','N','N','N','N','K'] [2, 1] _ 2
      (by decide) (by decide) (by decide) (by decide) (by decide) (by decide) 2 (by decide),
   completed_tour_visits_targets (fun _ _ _ => 0)
      ['K','Q',' ','R','R','R','R','B','B','B','B','N','N','N','N','K'] [2, 1] _ 2
      (by decide) (by decide) (by decide) (by decide) (by decide) (by decide) 1 (by decide)⟩

/-! ## The tour: repeated targets -/

theorem mem_remove_repeats {l : List Nat} {t : Nat} : t ∈ remove_repeats l ↔ t ∈ l := by
  induction l with
  | nil => simp [remove_repeats]
  | cons a l ih =>
    simp only [remove_repeats, List.mem_cons, List.mem_filter, decide_eq_true_eq, ih]
    constructor
    · rintro (h | ⟨h, -⟩)
      · exact Or.inl h
      · exact Or.inr h
    · intro h
      by_cases hta : t = a
      · exact Or.inl hta
      · rcases h with h | h
        · exact Or.inl h
        · exact Or.inr ⟨h, hta⟩

theorem remove_repeats_filter (p : Nat → Bool) (l : List Nat) :
    (remove_repeats l).filter p = remove_repeats (l.filter p) := by
  induction l with
  | nil => simp [remove_repeats]
  | cons a l ih =>
    by_cases hpa : p a = true
    · rw [List.filter_cons_of_pos hpa]
      simp only [remove_repeats]
      rw [List.filter_cons_of_pos hpa, ← ih, List.filter_filter, List.filter_filter]
      congr 1
      apply List.filter_congr
      intro x _
      exact Bool.and_comm _ _
    · rw [List.filter_cons_of_neg hpa]
      simp only [remove_repeats]
      rw [List.filter_cons_of_neg hpa, ← ih, List.filter_filter]
      apply List.filter_congr
      intro x _
      by_cases hxa : x = a
      · subst hxa
        simp [hpa]
      · simp [hxa]

theorem remove_repeats_append (l1 l2 : List Nat) :
    remove_repeats (l1 ++ l2) =
      remove_repeats l1 ++ (remove_repeats l2).filter (fun x => decide (x ∉ l1)) := by
  induction l1 with
  | nil => simp [remove_repeats]
  | cons a l1 ih =>
    have hstep : remove_repeats (a :: l1 ++ l2) =
        a :: (remove_repeats (l1 ++ l2)).filter (fun x => decide (x ≠ a)) := rfl
    have hcons : remove_repeats (a :: l1) =
        a :: (remove_repeats l1).filter (fun x => decide (x ≠ a)) := rfl
    rw [hstep, hcons, ih, List.filter_append, List.filter_filter, List.cons_append]
    congr 2
    apply List.filter_congr
    intro x _
    simp only [List.mem_cons, not_or, Bool.decide_and]

theorem filter_ne_erase (l : List Nat) (v : Nat) :
    (l.erase v).filter (fun x => decide (x ≠ v)) = l.filter (fun x => decide (x ≠ v)) := by
  induction l with
  | nil => simp
  | cons a l ih =>
    by_cases hav : a = v
    · subst hav
      simp
    · rw [List.erase_cons_tail (by simpa using hav), List.filter_cons, List.filter_cons, ih]

theorem eraseIdx_eq_erase_of_first (l : List Nat) (i a : Nat) (hget : l[i]? = some a)
    (hfirst : ∀ t, t ∈ l.take i → t ≠ a) : l.eraseIdx i = l.erase a := by
  induction l generalizing i with
  | nil => simp at hget
  | cons x xs ih =>
    cases i with
    | zero =>
      simp only [List.getElem?_cons_zero, Option.some.injEq] at hget
      subst hget
      simp
    | succ i =>
      simp only [List.getElem?_cons_succ] at hget
      have hxa : x ≠ a := hfirst x (by simp)
      rw [List.eraseIdx_cons_succ, List.erase_cons_tail (by simpa using hxa)]
      congr 1
      apply ih i hget
      intro t ht
      exact hfirst t (by simp [ht])

theorem firstNearest_unique {q : Nat} {l : List Nat} {i j a b : Nat}
    (ha : FirstNearest q l i a) (hb : FirstNearest q l j b) : a = b := by
  obtain ⟨hga, hmina, hfa⟩ := ha
  obtain ⟨hgb, hminb, hfb⟩ := hb
  obtain ⟨hi, hia⟩ := List.getElem?_eq_some.mp hga
  obtain ⟨hj, hjb⟩ := List.getElem?_eq_some.mp hgb
  rcases Nat.lt_trichotomy i j with h | h | h
  · have h1 := hfb a (List.mem_take_iff_getElem.mpr ⟨i, by omega, hia⟩)
    have h2 := hmina b (List.getElem?_mem hgb)
    omega
  · subst h
    rw [hga] at hgb
    exact Option.some.inj hgb
  · have h1 := hfa b (List.mem_take_iff_getElem.mpr ⟨j, by omega, hjb⟩)
    have h2 := hminb a (List.getElem?_mem hga)
    omega

theorem firstNearest_remove_repeats {q : Nat} {l : List Nat} {i a : Nat}
    (h : FirstNearest q l i a) : ∃ j, FirstNearest q (remove_repeats l) j a := by
  obtain ⟨hget, hmin, hfirst⟩ := h
  obtain ⟨hi, hia⟩ := List.getElem?_eq_some.mp hget
  have hsplit : l = l.take i ++ a :: l.drop (i + 1) := by
    rw [← hia, ← List.drop_eq_getElem_cons hi, List.take_append_drop]
  have hnot : a ∉ l.take i := by
    intro hmem
    have := hfirst a hmem
    omega
  have hD : remove_repeats l = remove_repeats (l.take i) ++
      a :: ((remove_repeats (l.drop (i + 1))).filter (fun x => decide (x ≠ a))).filter
        (fun x => decide (x ∉ l.take i)) := by
    conv_lhs => rw [hsplit]
    rw [remove_repeats_append]
    simp only [remove_repeats]
    rw [List.filter_cons_of_pos (by simpa using hnot)]
  refine ⟨(remove_repeats (l.take i)).length, ?_, ?_, ?_⟩
  · rw [hD, List.getElem?_append_right (Nat.le_refl _), Nat.sub_self]
    exact List.getElem?_cons_zero
  · intro t ht
    exact hmin t (mem_remove_repeats.mp ht)
  · intro t ht
    rw [hD, List.take_left] at ht
    exact hfirst t (mem_remove_repeats.mp ht)

theorem selection_facts (q : Nat) (R : List Nat) (hq : q < 16) (hne : R ≠ [])
    (hall : ∀ t, t ∈ R → t < 16) :
    ∃ v, FirstNearest q R (nearest_target q R).1.toNat v ∧
      R.getD (nearest_target q R).1.toNat 0 = v ∧
      R.eraseIdx (nearest_target q R).1.toNat = R.erase v ∧
      v ∈ R ∧ (q ∈ R → v = q) := by
  obtain ⟨v, -, hfn, hqv⟩ := nearest_target_spec q R hq hne hall
  refine ⟨v, hfn, ?_, ?_, List.getElem?_mem hfn.1, hqv⟩
  · obtain ⟨hi, hiv⟩ := List.getElem?_eq_some.mp hfn.1
    rw [List.getD_eq_getElem R 0 hi, hiv]
  · apply eraseIdx_eq_erase_of_first R _ v hfn.1
    intro t ht heq
    have := hfn.2.2 t ht
    rw [heq] at this
    omega

theorem tour_from_nil (pick : Board → Nat → Nat → Nat) (b : Board) (P : List Board)
    (n : Nat) : tour_from pick b [] P n = TourResult.completed P n := by
  simp [tour_from, tour_loop]

theorem tour_from_cons_eq (pick : Board → Nat → Nat → Nat) (b : Board) (R : List Nat)
    (P : List Board) (n : Nat) (hne : R ≠ []) :
    tour_from pick b R P n =
      match tour_iteration pick
          { full_path := P, current_board := b, remaining_targets := R, tour_step := n } with
      | IterationResult.next s' => tour_loop pick (R.length - 1) s'
      | IterationResult.queen_lost => TourResult.queen_lost
      | IterationResult.no_solution target_pos => TourResult.no_solution target_pos
      | IterationResult.out_of_fuel => TourResult.out_of_fuel := by
  obtain ⟨k, hk⟩ : ∃ k, R.length = k + 1 :=
    ⟨R.length - 1, by have := List.length_pos.mpr hne; omega⟩
  unfold tour_from
  rw [hk, tour_loop]
  simp only [hne, if_false, Nat.add_sub_cancel]

theorem tour_from_skip (pick : Board → Nat → Nat → Nat) (b : Board) (R : List Nat)
    (P : List Board) (n q : Nat) (hfq : find_queen b = some q) (hqR : q ∈ R)
    (hall : ∀ t, t ∈ R → t < 16) :
    tour_from pick b R P n = tour_from pick b (R.erase q) P n := by
  have hne : R ≠ [] := List.ne_nil_of_mem hqR
  have hq : q < 16 := hall q hqR
  obtain ⟨v, -, hget, herase, -, hqv⟩ := selection_facts q R hq hne hall
  have hvq : v = q := hqv hqR
  rw [tour_from_cons_eq pick b R P n hne]
  unfold tour_iteration
  simp only [hfq, hget, herase, hvq, if_true]
  unfold tour_from
  rw [List.length_erase_of_mem hqR]

theorem tour_from_search (pick : Board → Nat → Nat → Nat) (b : Board) (R : List Nat)
    (P : List Board) (n q i v : Nat) (hfq : find_queen b = some q) (hq : q < 16)
    (hqR : q ∉ R) (hall : ∀ t, t ∈ R → t < 16) (hfn : FirstNearest q R i v) :
    tour_from pick b R P n =
      match solve_queens_quadrille (pick b v) b v with
      | none => TourResult.out_of_fuel
      | some [] => TourResult.no_solution v
      | some (first :: more) =>
        tour_from pick ((first :: more).getLast (List.cons_ne_nil first more)) (R.erase v)
          (P ++ more) (n + 1) := by
  have hvR : v ∈ R := List.getElem?_mem hfn.1
  have hne : R ≠ [] := List.ne_nil_of_mem hvR
  obtain ⟨v', hfn', hget, herase, -, -⟩ := selection_facts q R hq hne hall
  have hv : v' = v := firstNearest_unique hfn' hfn
  subst hv
  have hvq : ¬ v' = q := fun h => hqR (h ▸ hvR)
  rw [tour_from_cons_eq pick b R P n hne]
  unfold tour_iteration
  simp only [hfq, hget, herase, hvq, if_false]
  cases hsolve : solve_queens_quadrille (pick b v') b v' with
  | none => rfl
  | some path =>
    cases path with
    | nil => rfl
    | cons first more =>
      simp only
      unfold tour_from
      rw [List.length_erase_of_mem hvR]

theorem tour_from_filter_queen (pick : Board → Nat → Nat → Nat) (b : Board) (q : Nat)
    (hfq : find_queen b = some q) :
    ∀ (m : Nat) (Y : List Nat) (P : List Board) (n : Nat), Y.length ≤ m →
      (∀ t, t ∈ Y → t < 16) →
      tour_from pick b Y P n = tour_from pick b (Y.filter (fun x => decide (x ≠ q))) P n := by
  intro m
  induction m with
  | zero =>
    intro Y P n hlen _
    have hY : Y = [] := List.length_eq_zero.mp (Nat.le_zero.mp hlen)
    subst hY
    rfl
  | succ m ih =>
    intro Y P n hlen hall
    by_cases hqY : q ∈ Y
    · rw [tour_from_skip pick b Y P n q hfq hqY hall]
      have hlen' : (Y.erase q).length ≤ m := by
        rw [List.length_erase_of_mem hqY]
        omega
      rw [ih (Y.erase q) P n hlen' (fun t ht => hall t (List.mem_of_mem_erase ht)),
        filter_ne_erase]
    · have hself : Y.filter (fun x => decide (x ≠ q)) = Y := by
        rw [List.filter_eq_self]
        intro a ha
        simp only [decide_eq_true_eq]
        rintro rfl
        exact hqY ha
      rw [hself]

theorem solve_last_facts {pick : Nat → Nat} {b : Board} {t : Nat} {first : Board}
    {more : List Board} (hlen : b.length = 16) (hcount : b.count 'Q' = 1) (ht : t < 16)
    (h : solve_queens_quadrille pick b t = some (first :: more)) :
    ((first :: more).getLast (List.cons_ne_nil first more)).length = 16 ∧
    ((first :: more).getLast (List.cons_ne_nil first more)).count 'Q' = 1 ∧
    find_queen ((first :: more).getLast (List.cons_ne_nil first more)) = some t := by
  obtain ⟨-, -, hgoal⟩ := solve_path_facts h
  rcases solve_result pick b t _ h with ⟨hnil, -⟩ | ⟨n, hn, hpath, -⟩
  · exact absurd hnil (List.cons_ne_nil _ _)
  · have hmem : (first :: more).getLast (List.cons_ne_nil first more) ∈ n.path := by
      rw [hpath]
      exact List.getLast_mem (List.cons_ne_nil first more)
    have hperm := perm_of_mem_legalPath b hlen n.path hn.legal hn.head _ hmem
    have hlen' : ((first :: more).getLast (List.cons_ne_nil first more)).length = 16 := by
      rw [hperm.length_eq, hlen]
    have hcount' : ((first :: more).getLast (List.cons_ne_nil first more)).count 'Q' = 1 := by
      rw [hperm.count_eq, hcount]
    exact ⟨hlen', hcount', find_queen_eq _ t hlen' hcount' ht hgoal⟩

/-- The tour loop gives the same outcome on a list of remaining targets and on
that list with its repeated entries removed. -/
theorem tour_from_remove_repeats (pick : Board → Nat → Nat → Nat) :
    ∀ (m : Nat) (R : List Nat) (b : Board) (P : List Board) (n : Nat), R.length ≤ m →
      b.length = 16 → b.count 'Q' = 1 → (∀ t, t ∈ R → t < 16) →
      tour_from pick b R P n = tour_from pick b (remove_repeats R) P n := by
  intro m
  induction m with
  | zero =>
    intro R b P n hlen _ _ _
    have hR : R = [] := List.length_eq_zero.mp (Nat.le_zero.mp hlen)
    subst hR
    rfl
  | succ m ih =>
    intro R b P n hlen hb hcount hall
    obtain ⟨q, hq16, hbq⟩ := exists_queen b hb hcount
    have hfq := find_queen_eq b q hb hcount hq16 hbq
    have hallD : ∀ t, t ∈ remove_repeats R → t < 16 :=
      fun t ht => hall t (mem_remove_repeats.mp ht)
    by_cases hqR : q ∈ R
    · rw [tour_from_filter_queen pick b q hfq _ R P n (le_refl _) hall,
        tour_from_filter_queen pick b q hfq _ (remove_repeats R) P n (le_refl _) hallD,
        remove_repeats_filter]
      apply ih _ b P n _ hb hcount
      · intro t ht
        exact hall t (List.mem_filter.mp ht).1
      · have hlt : (R.filter (fun x => decide (x ≠ q))).length < R.length := by
          rw [List.length_filter_lt_length_iff_exists]
          exact ⟨q, hqR, by simp⟩
        omega
    · by_cases hne : R = []
      · subst hne
        rfl
      · obtain ⟨v, hfn, -, -, hvR, -⟩ := selection_facts q R hq16 hne hall
        obtain ⟨j, hfnD⟩ := firstNearest_remove_repeats hfn
        have hqD : q ∉ remove_repeats R := fun h => hqR (mem_remove_repeats.mp h)
        have hv16 : v < 16 := hall v hvR
        rw [tour_from_search pick b R P n q _ v hfq hq16 hqR hall hfn,
          tour_from_search pick b (remove_repeats R) P n q j v hfq hq16 hqD hallD hfnD]
        cases hsolve : solve_queens_quadrille (pick b v) b v with
        | none => rfl
        | some path =>
          cases path with
          | nil => rfl
          | cons first more =>
            simp only
            obtain ⟨hb', hcount', hfq'⟩ := solve_last_facts hb hcount hv16 hsolve
            have hlenE : (R.erase v).length ≤ m := by
              rw [List.length_erase_of_mem hvR]
              omega
            have hallE : ∀ t, t ∈ R.erase v → t < 16 :=
              fun t ht => hall t (List.mem_of_mem_erase ht)
            rw [ih (R.erase v) _ (P ++ more) (n + 1) hlenE hb' hcount' hallE,
              tour_from_filter_queen pick _ v hfq' _ (remove_repeats (R.erase v)) _ _
                (le_refl _) (fun t ht => hallE t (mem_remove_repeats.mp ht)),
              tour_from_filter_queen pick _ v hfq' _ ((remove_repeats R).erase v) _ _
                (le_refl _) (fun t ht => hallD t (List.mem_of_mem_erase ht)),
              remove_repeats_filter, filter_ne_erase, filter_ne_erase, remove_repeats_filter]

/-- Claim C14 (repeated targets are harmless): for a 16-cell start board with
exactly one empty cell and exactly one Queen and a target list with entries in
[0,16), the tour on the list has the same outcome as the tour on the list with
every repeated target removed after its first occurrence: the same full path
of boards with the same number of searched legs, or the same failure.  So a
repeated target costs no search and adds nothing to the path. -/
theorem repeated_targets_harmless (pick : Board → Nat → Nat → Nat) (start : Board)
    (targets : List Nat) (hlen : start.length = 16) (_hblank : start.count ' ' = 1)
    (hqueen : start.count 'Q' = 1) (hall : ∀ t, t ∈ targets → t < 16) :
    tour pick start targets = tour pick start (remove_repeats targets) :=
  tour_from_remove_repeats pick targets.length targets start [start] 1 (le_refl _) hlen
    hqueen hall

/-- Witness for `repeated_targets_harmless`: the targets 2, 1, 2 and the
targets 2, 1 from a board with the Queen on cell 1. -/
theorem repeated_targets_harmless_witness :
    remove_repeats [2, 1, 2] = [2, 1] ∧
    tour (fun _ _ _ => 0)
        ['K','Q',' ','R','R','R','R','B','B','B','B','N','N','N','N','K'] [2, 1, 2] =
      tour (fun _ _ _ => 0)
        ['K','Q',' ','R','R','R','R','B','B','B','B','N','N','N','N','K']
        (remove_repeats [2, 1, 2]) :=
  ⟨by decide,
   repeated_targets_harmless (fun _ _ _ => 0)
    ['K','Q',' ','R','R','R','R','B','B','B','B','N','N','N','N','K'] [2, 1, 2]
    (by decide) (by decide) (by decide) (by decide)⟩

end QueensQuadrille
